import Mathlib

/-!
# Jigsaw puzzle engine and cutter: a shallow embedding

This file embeds the core logic of the jigsaw-puzzle repository in Lean 4:

* the interactive engine (`src/js/PuzzleEngine.js`): piece/group state,
  selection, drag snapping, group merging, camera zoom;
* the seeded cutter (the `PuzzleCutter` listing shipped in
  `src/DEPLOYMENT.md`): mulberry32 PRNG, edge generation, scatter shuffle;
* the multi-user merge layer (`handleRemotePuzzleUpdate`,
  `rebuildGroups`, `restoreSharedPuzzle` from the main application file).

JavaScript numbers are modelled as exact rationals (`ℚ`); 32-bit integer
operations of the PRNG are modelled on `ℕ` with explicit `% 2^32`.
JavaScript object references into the engine's piece array are modelled as
list indices (the array is never reordered or resized during a session, so
indices are stable exactly like references).  JS `Map`/`Set` (which preserve
insertion order and key/element uniqueness) are modelled as association
lists / lists, with operations that preserve those properties.
-/

/-! ## Generic list helpers -/

/-- Replace the element at index `i` by `f` of it (out of range: no change).
Models a mutation through a JS object reference held at a known array index. -/
def modifyAt {α : Type} (f : α → α) : ℕ → List α → List α
  | _, [] => []
  | 0, a :: as => f a :: as
  | n + 1, a :: as => a :: modifyAt f n as

/-- Apply `f` to the first element satisfying `q` (none: no change).
Models `this.pieces.find(...)` followed by mutating the found object. -/
def updateFirstBy {α : Type} (q : α → Bool) (f : α → α) : List α → List α
  | [] => []
  | a :: as => if q a then f a :: as else a :: updateFirstBy q f as

/-- Association-list lookup, first entry with the given key.
Models `Map.get` (JS `Map` keys are unique, so "first" is "the"). -/
def alookup (k : ℕ) : List (ℕ × List ℕ) → Option (List ℕ)
  | [] => none
  | g :: gs => if g.1 = k then some g.2 else alookup k gs

/-- `Set.add`: append unless already present (JS `Set` preserves insertion
order and uniqueness). -/
def setAdd (l : List ℕ) (x : ℕ) : List ℕ :=
  if x ∈ l then l else l ++ [x]

/-! ## Engine data model (`src/js/PuzzleEngine.js`) -/

/-- An engine-side puzzle piece: the fields of the piece objects that the
engine reads and mutates.  The pre-rendered bitmap (`piece.canvas`) is not
part of the model; pixel-level hit testing is abstracted by an oracle
argument where needed. -/
structure Piece where
  id : ℕ
  row : ℕ
  col : ℕ
  correctX : ℚ
  correctY : ℚ
  currentX : ℚ
  currentY : ℚ
  width : ℚ
  height : ℚ
  tabPadding : ℚ
  groupId : ℕ
  zIndex : ℤ
  isPlaced : Bool
  isLocked : Bool
  isSelected : Bool
deriving DecidableEq, Repr

/-- The camera/viewport transform. -/
structure Camera where
  x : ℚ
  y : ℚ
  scale : ℚ
deriving DecidableEq, Repr

/-- The engine state touched by the claims: live pieces, the current
selection (as indices into `pieces`, standing for the JS object references
stored in `this.selectedPieces`), the group map, the group-id counter, the
placed-piece statistics and the camera. -/
structure Engine where
  pieces : List Piece
  selectedPieces : List ℕ
  groups : List (ℕ × List ℕ)
  nextGroupId : ℕ
  placedPieces : ℕ
  totalPieces : ℕ
  camera : Camera
  canvasWidth : ℚ
  canvasHeight : ℚ
deriving DecidableEq, Repr

/-- `touchSettings.snapDistance` (v1.3.5). -/
def snapDistance : ℚ := 40

/-! ## Engine operations -/

/-- `screenToWorld`: `world = (screen - camera.offset) / camera.scale`. -/
def screenToWorld (cam : Camera) (screenX screenY : ℚ) : ℚ × ℚ :=
  ((screenX - cam.x) / cam.scale, (screenY - cam.y) / cam.scale)

/-- `worldToScreen`: inverse affine transform. -/
def worldToScreen (cam : Camera) (worldX worldY : ℚ) : ℚ × ℚ :=
  (worldX * cam.scale + cam.x, worldY * cam.scale + cam.y)

/-- `setPieces` helper: give each piece (in order) the next fresh group id
and a singleton group, mirroring the `forEach` over `pieces` with
`this.nextGroupId++`.  Returns the re-tagged pieces, the group list and the
final counter value. -/
def initGroups (g0 : ℕ) : List Piece → List Piece × List (ℕ × List ℕ) × ℕ
  | [] => ([], [], g0)
  | p :: ps =>
      let r := initGroups (g0 + 1) ps
      ({ p with groupId := g0 } :: r.1, (g0, [p.id]) :: r.2.1, r.2.2)

/-- `setPieces`: install a fresh piece array, reset stats and selection,
put every piece in its own singleton group.  (The camera centering on the
puzzle bounds only touches `camera.x/y` and is irrelevant to every claim;
it is omitted here, leaving the camera unchanged.) -/
def setPieces (e : Engine) (ps : List Piece) : Engine :=
  let r := initGroups 0 ps
  { e with
    pieces := r.1
    totalPieces := ps.length
    placedPieces := 0
    selectedPieces := []
    groups := r.2.1
    nextGroupId := r.2.2 }

/-- `clearSelection`: clear the `isSelected` flag of every currently
selected piece, then empty the selection list. -/
def clearSelection (e : Engine) : Engine :=
  { e with
    pieces := e.selectedPieces.foldl
      (fun ps i => modifyAt (fun p => { p with isSelected := false }) i ps) e.pieces
    selectedPieces := [] }

/-- Largest `zIndex` among `pieces` (`Math.max(...this.pieces.map(p => p.zIndex))`).
On an empty array JS yields `-Infinity`; the engine only calls this with a
non-empty piece array, where this fold is exact.  -/
def maxZof : List Piece → ℤ
  | [] => 0
  | p :: ps => ps.foldl (fun m q => max m q.zIndex) p.zIndex

/-- `bringSelectedToFront`: assign `maxZ + index + 1` to the selected pieces
in selection-list order. -/
def bringSelectedToFront (e : Engine) : Engine :=
  let maxZ := maxZof e.pieces
  { e with
    pieces := (e.selectedPieces.enum.foldl
      (fun ps ii =>
        modifyAt (fun p => { p with zIndex := maxZ + ii.1 + 1 }) ii.2 ps)
      e.pieces) }

/-- Index of the first piece satisfying `q` (the JS reference returned by
`this.pieces.find(...)`, as a stable array index). -/
def findIdxBy (q : Piece → Bool) : List Piece → Option ℕ
  | [] => none
  | a :: as => if q a then some 0 else (findIdxBy q as).map (fun j => j + 1)

/-- One member step of `activatePieceDrag`'s selection loop: find the piece
with the given id; if present, mark it selected and append its reference to
the selection list. -/
def dragSelectStep (acc : Engine) (pid : ℕ) : Engine :=
  match findIdxBy (fun p => p.id == pid) acc.pieces with
  | some j =>
      { acc with
        pieces := modifyAt (fun p => { p with isSelected := true }) j acc.pieces
        selectedPieces := acc.selectedPieces ++ [j] }
  | none => acc

/-- `activatePieceDrag` (selection part): clear the selection, select every
piece of the touched piece's current group (in member-set insertion order),
then bring the selection to the front.  `pi` is the index of the touched
piece (the JS reference).  The `input.isDragging` bookkeeping has no effect
on piece state and is not modelled. -/
def activatePieceDrag (e : Engine) (pi : ℕ) : Engine :=
  match e.pieces[pi]? with
  | none => e
  | some piece =>
      let e1 := clearSelection e
      match alookup piece.groupId e1.groups with
      | some memberIds =>
          bringSelectedToFront (memberIds.foldl dragSelectStep e1)
      | none =>
          -- Fallback if no group found
          let e2 := { e1 with
            pieces := modifyAt (fun p => { p with isSelected := true }) pi e1.pieces
            selectedPieces := [pi] }
          bringSelectedToFront e2

/-- `moveSelectedPieces`: translate every selected piece by `(dx, dy)`. -/
def moveSelectedPieces (e : Engine) (dx dy : ℚ) : Engine :=
  { e with
    pieces := e.selectedPieces.foldl
      (fun ps i =>
        modifyAt (fun p => { p with currentX := p.currentX + dx, currentY := p.currentY + dy }) i ps)
      e.pieces }

/-- `selectPiecesInBox`: clear the selection, then select every piece whose
center lies in the box spanned by the drag start and current point.  Note:
this does **not** exclude locked pieces. -/
def selectPiecesInBox (e : Engine) (startX startY currentX currentY : ℚ) : Engine :=
  let minX := min startX currentX
  let maxX := max startX currentX
  let minY := min startY currentY
  let maxY := max startY currentY
  let inBox : Piece → Bool := fun p =>
    decide (minX ≤ p.currentX + p.width / 2) && decide (p.currentX + p.width / 2 ≤ maxX) &&
    decide (minY ≤ p.currentY + p.height / 2) && decide (p.currentY + p.height / 2 ≤ maxY)
  let e1 := clearSelection e
  { e1 with
    pieces := e1.pieces.map (fun p => if inBox p then { p with isSelected := true } else p)
    selectedPieces := (List.range e1.pieces.length).filter
      (fun j => match e1.pieces[j]? with
        | some p => inBox p
        | none => false) }

/-- `isPointInPiece`: bounding-box test followed by an alpha-channel test at
the floored piece-relative pixel.  The canvas pixel read
(`getImageData(...).data[3]`) is abstracted by the oracle `alpha`, indexed
by piece id and the floored relative coordinates. -/
def isPointInPiece (alpha : ℕ → ℤ → ℤ → ℕ) (x y : ℚ) (p : Piece) : Bool :=
  let relX := x - p.currentX
  let relY := y - p.currentY
  if relX < 0 ∨ relY < 0 ∨ relX > p.width ∨ relY > p.height then false
  else decide (alpha p.id ⌊relX⌋ ⌊relY⌋ > 128)

/-- `getPieceAt`: scan pieces from top to bottom (descending `zIndex`),
skipping locked pieces, and return the first piece containing the point.
(The JS `sort` comparator `b.zIndex - a.zIndex` sorts descending.) -/
def getPieceAt (alpha : ℕ → ℤ → ℤ → ℕ) (e : Engine) (x y : ℚ) : Option Piece :=
  let sorted := e.pieces.mergeSort (fun a b => decide (b.zIndex ≤ a.zIndex))
  sorted.find? (fun p => !p.isLocked && isPointInPiece alpha x y p)

/-- The field update applied to each member piece by
`snapGroupToFinalPosition`: snap to the exact correct position, lock,
deselect.  (`isPlaced` is set inside `if (!piece.isPlaced)`, which has the
same effect on the flag as setting it unconditionally; the counter update is
kept separate in `snapStep`.) -/
def snapP (p : Piece) : Piece :=
  { p with
    currentX := p.correctX
    currentY := p.correctY
    isLocked := true
    isSelected := false
    isPlaced := true }

/-- One member-id step of `snapGroupToFinalPosition`: find the piece with
that id; if present, snap it and bump the placed counter on the first
transition of `isPlaced`. -/
def snapStep (st : List Piece × ℕ) (pid : ℕ) : List Piece × ℕ :=
  match st.1.find? (fun p => p.id == pid) with
  | none => st
  | some p =>
      (updateFirstBy (fun q => q.id == pid) snapP st.1,
       st.2 + if p.isPlaced then 0 else 1)

/-- `snapGroupToFinalPosition`: snap every member of the group to its own
correct position, lock and deselect them, count first-time placements, then
clear the selection list.  The `offsetX/offsetY` arguments are accepted (as
in the source) but unused by the body. -/
def snapGroupToFinalPosition (e : Engine) (groupId : ℕ) (offsetX offsetY : ℚ) : Engine :=
  match alookup groupId e.groups with
  | none => e
  | some pieceIds =>
      let r := pieceIds.foldl snapStep (e.pieces, e.placedPieces)
      { e with pieces := r.1, placedPieces := r.2, selectedPieces := [] }

/-- `moveGroup`: translate every member of a group by `(dx, dy)`. -/
def moveGroup (e : Engine) (groupId : ℕ) (dx dy : ℚ) : Engine :=
  match alookup groupId e.groups with
  | none => e
  | some pieceIds =>
      { e with
        pieces := pieceIds.foldl
          (fun ps pid =>
            updateFirstBy (fun p => p.id == pid)
              (fun p => { p with currentX := p.currentX + dx, currentY := p.currentY + dy }) ps)
          e.pieces }

/-- `mergeGroups`: absorb group `b` into group `a` — add `b`'s members to
`a`'s set, retag their pieces, delete entry `b`.  (The JS `Map` mutation
"update the set at key `a`, delete key `b`" is written here as one
`filterMap` over the association list; `Map` keys are unique, so the two
agree.) -/
def mergeGroups (e : Engine) (a b : ℕ) : Engine :=
  if a = b then e else
  match alookup a e.groups, alookup b e.groups with
  | some _, some piecesB =>
      { e with
        groups := e.groups.filterMap (fun g =>
          if g.1 = b then none
          else if g.1 = a then some (a, piecesB.foldl setAdd g.2)
          else some g)
        pieces := piecesB.foldl
          (fun ps pid => updateFirstBy (fun p => p.id == pid) (fun p => { p with groupId := a }) ps)
          e.pieces }
  | _, _ => e

/-- Row/column adjacency test of `checkAdjacentSnapping`: differ by exactly
one step in exactly one axis, and belong to a different group. -/
def isNeighborOf (piece p : Piece) : Bool :=
  !(p.id == piece.id) && !(p.groupId == piece.groupId) &&
  (let rowDiff := ((p.row : ℤ) - piece.row).natAbs
   let colDiff := ((p.col : ℤ) - piece.col).natAbs
   (rowDiff == 1 && colDiff == 0) || (rowDiff == 0 && colDiff == 1))

/-- One neighbor step of `checkAdjacentSnapping`: with the dragged piece at
index `i` and the neighbor at index `j` (both read live), snap the dragged
piece's whole group onto the neighbor-relative expected position and merge
the two groups when within threshold.  The JS comparison
`sqrt(dx² + dy²) < snapDist` is written as `dx² + dy² < snapDist²`
(equivalent, as both sides are nonnegative and `snapDist > 0`). -/
def adjStep (e : Engine) (i j : ℕ) (snapDist : ℚ) : Engine :=
  match e.pieces[i]?, e.pieces[j]? with
  | some piece, some neighbor =>
      let expectedX := neighbor.currentX +
        ((piece.col : ℚ) - (neighbor.col : ℚ)) * (piece.width - piece.tabPadding * 2)
      let expectedY := neighbor.currentY +
        ((piece.row : ℚ) - (neighbor.row : ℚ)) * (piece.height - piece.tabPadding * 2)
      let dx := expectedX - piece.currentX
      let dy := expectedY - piece.currentY
      if dx ^ 2 + dy ^ 2 < snapDist ^ 2 then
        let e1 := moveGroup e piece.groupId dx dy
        mergeGroups e1 piece.groupId neighbor.groupId
      else e
  | _, _ => e

/-- `checkAdjacentSnapping` for the piece at index `i`: compute the
neighbor list once from the current state (the JS `filter` snapshots the
references), then process each neighbor in order with live reads. -/
def checkAdjacentSnapping (e : Engine) (i : ℕ) (snapDist : ℚ) : Engine :=
  match e.pieces[i]? with
  | none => e
  | some piece =>
      let neighborIdx := (List.range e.pieces.length).filter
        (fun j => match e.pieces[j]? with
          | some p => isNeighborOf piece p
          | none => false)
      neighborIdx.foldl (fun acc j => adjStep acc i j snapDist) e

/-- Final-position proximity test of `checkSnapping`, with the JS
`sqrt(dx² + dy²) < snapDist` written squared (equivalent for
`snapDist ≥ 0`). -/
def withinSnapB (snapDist : ℚ) (p : Piece) : Bool :=
  decide ((p.correctX - p.currentX) ^ 2 + (p.correctY - p.currentY) ^ 2 < snapDist ^ 2)

/-- The selected pieces in selection order (the values behind the references
in `this.selectedPieces`). -/
def selPieces (e : Engine) : List Piece :=
  e.selectedPieces.filterMap (fun i => e.pieces[i]?)

/-- `checkSnapping`: if some selected piece is within the snap threshold of
its correct position, snap that (first such) piece's whole group to final
position and stop; otherwise run adjacency snapping for every selected
piece in order. -/
def checkSnapping (e : Engine) : Engine :=
  match (selPieces e).find? (withinSnapB snapDistance) with
  | some piece =>
      snapGroupToFinalPosition e piece.groupId
        (piece.correctX - piece.currentX) (piece.correctY - piece.currentY)
  | none =>
      e.selectedPieces.foldl (fun acc i => checkAdjacentSnapping acc i snapDistance) e

/-! ## Multi-user layer (main application file, v2.0.2) -/

/-- The per-piece state carried by a saved/remote puzzle snapshot
(`getPuzzleState` serializes exactly these fields). -/
structure RemotePiece where
  id : ℕ
  currentX : ℚ
  currentY : ℚ
  isPlaced : Bool
  isLocked : Bool
  groupId : ℕ
  zIndex : ℤ
deriving DecidableEq, Repr

/-- `rebuildGroups` helper: add `pid` to the member set for `g`, creating
the entry on first use (JS `Map`/`Set` insertion order preserved). -/
def insertGrp (m : List (ℕ × List ℕ)) (g pid : ℕ) : List (ℕ × List ℕ) :=
  if (alookup g m).isSome then
    m.map (fun e => if e.1 = g then (e.1, setAdd e.2 pid) else e)
  else m ++ [(g, [pid])]

/-- `rebuildGroups`: rebuild the engine's group map from a saved piece list,
retag every mentioned piece's `groupId`, and advance `nextGroupId` past the
largest seen id.  (The JS guard for `undefined`/`null` `groupId` is vacuous
here: the model's saved pieces always carry a group id.) -/
def rebuildGroups (e : Engine) (saved : List RemotePiece) : Engine :=
  let gm := saved.foldl (fun m sp => insertGrp m sp.groupId sp.id) []
  let maxG := saved.foldl (fun mx sp => max mx sp.groupId) 0
  let pieces1 := gm.foldl
    (fun ps g => g.2.foldl
      (fun ps2 pid =>
        updateFirstBy (fun p => p.id == pid) (fun p => { p with groupId := g.1 }) ps2)
      ps)
    e.pieces
  { e with groups := gm, pieces := pieces1, nextGroupId := maxG + 1 }

/-- The piece ids currently selected by the local user
(`this.selectedPieces.map(p => p.id)`). -/
def localSelectedIds (e : Engine) : List ℕ :=
  e.selectedPieces.filterMap (fun i => (e.pieces[i]?).map (fun p => p.id))

/-- The verbatim field overwrite applied by `handleRemotePuzzleUpdate` to a
matching, non-selected local piece. -/
def remoteApply (rp : RemotePiece) (p : Piece) : Piece :=
  { p with
    currentX := rp.currentX
    currentY := rp.currentY
    isPlaced := rp.isPlaced
    isLocked := rp.isLocked
    zIndex := rp.zIndex }

/-- `handleRemotePuzzleUpdate`, piece-state part: for every remote piece
whose id is **not** locally selected, overwrite the matching local piece's
position, flags and z-index verbatim; then rebuild groups from the remote
data and recompute the placed-piece statistic.  (The remote-selection
highlights and the reference-image sync touch neither `pieces` nor `groups`
and are outside the claims' scope.) -/
def handleRemotePuzzleUpdate (e : Engine) (remotePieces : List RemotePiece) : Engine :=
  let selectedIds := localSelectedIds e
  let pieces1 := remotePieces.foldl
    (fun ps rp =>
      if rp.id ∈ selectedIds then ps
      else updateFirstBy (fun p => p.id == rp.id) (remoteApply rp) ps)
    e.pieces
  let e1 := rebuildGroups { e with pieces := pieces1 } remotePieces
  { e1 with placedPieces := (remotePieces.filter (fun p => p.isPlaced || p.isLocked)).length }

/-- `restoreSharedPuzzle`, camera part: if the saved state carries a camera,
its offset and scale are assigned **verbatim** (no clamping). -/
def restoreSharedPuzzleCamera (cam : Camera) (saved : Option Camera) : Camera :=
  match saved with
  | some c => { x := c.x, y := c.y, scale := c.scale }
  | none => cam

/-- `handleWheel`, camera effect: clamp the new scale into `[0.1, 5]` and
"zoom towards the mouse".  (As in the source, both world positions are read
*after* the scale update, so the offset adjustment is zero; it is embedded
verbatim.) -/
def handleWheelCamera (cam : Camera) (mouseX mouseY deltaY : ℚ) : Camera :=
  let zoomFactor : ℚ := if 0 < deltaY then 9 / 10 else 11 / 10
  let cam1 : Camera := { cam with scale := max (1 / 10) (min 5 (cam.scale * zoomFactor)) }
  let worldBefore := screenToWorld cam1 mouseX mouseY
  let worldAfter := screenToWorld cam1 mouseX mouseY
  { cam1 with
    x := cam1.x + (worldAfter.1 - worldBefore.1)
    y := cam1.y + (worldAfter.2 - worldBefore.2) }

/-! ## Cutter data model (`PuzzleCutter`, seeded version from `src/DEPLOYMENT.md`) -/

/-- Shape-variation parameters of one tab/blank edge
(`generateEdgeVariation`). -/
structure EdgeVariation where
  neckWidth : ℚ
  headWidth : ℚ
  headHeight : ℚ
  neckHeight : ℚ
deriving DecidableEq, Repr

/-- One internal grid edge: tab direction (`1` or `-1`) plus its shape
variation. -/
structure EdgeSpec where
  direction : ℤ
  variation : EdgeVariation
deriving DecidableEq, Repr

/-- One side descriptor of a piece: direction `0` (flat, at the puzzle
boundary, with no variation recorded) or `±1` with the shared edge's
variation. -/
structure SideTab where
  direction : ℤ
  variation : Option EdgeVariation
deriving DecidableEq, Repr

/-- The four side descriptors of a piece. -/
structure Tabs where
  top : SideTab
  right : SideTab
  bottom : SideTab
  left : SideTab
deriving DecidableEq, Repr

/-- The tabs/blanks derivation of `createPiece`: each side looks up the
shared internal edge (`hEdges` between columns, `vEdges` between rows) and
negates the direction on the "far" side (`top` and `left`), so adjacent
pieces describe complementary pairs with identical variation. -/
def pieceTabs (rows cols : ℕ) (hEdges vEdges : ℕ → ℕ → EdgeSpec) (row col : ℕ) : Tabs :=
  { top := if row = 0 then ⟨0, none⟩ else
      ⟨-(vEdges (row - 1) col).direction, some (vEdges (row - 1) col).variation⟩
    right := if col = cols - 1 then ⟨0, none⟩ else
      ⟨(hEdges row col).direction, some (hEdges row col).variation⟩
    bottom := if row = rows - 1 then ⟨0, none⟩ else
      ⟨(vEdges row col).direction, some (vEdges row col).variation⟩
    left := if col = 0 then ⟨0, none⟩ else
      ⟨-(hEdges row (col - 1)).direction, some (hEdges row (col - 1)).variation⟩ }

/-! ## Randomness: mulberry32 and the `random()` dispatch

`createRNG(seed)` is the mulberry32 PRNG: a closure over a 32-bit state.
JS int32 bitwise semantics are modelled on the unsigned representative in
`ℕ` below `2^32` (xor/or/shift act on the same bit pattern, and `+`/`imul`
agree modulo `2^32`).  The result is an exact dyadic rational in `[0, 1)`.

`this.random()` uses the seeded generator when one is installed, else
`Math.random()`; the latter is modelled as an external entropy oracle
`ent : ℕ → ℚ` consumed sequentially. -/

/-- `2^32`. -/
def m32 : ℕ := 4294967296

/-- One call of the mulberry32 closure: returns the output in `[0, 1)` and
the updated internal state. -/
def mulberryStep (s0 : ℕ) : ℚ × ℕ :=
  let s := (s0 + 0x6D2B79F5) % m32
  let t1 := ((s ^^^ (s >>> 15)) * (1 ||| s)) % m32
  let t2 := ((t1 + ((t1 ^^^ (t1 >>> 7)) * (61 ||| t1)) % m32) % m32) ^^^ t1
  let t3 := t2 ^^^ (t2 >>> 14)
  ((t3 : ℚ) / (m32 : ℚ), s)

/-- Cutter randomness state: the optional seeded generator state plus the
`Math.random` entropy oracle and its read position. -/
structure RState where
  rng : Option ℕ
  ent : ℕ → ℚ
  entPos : ℕ

/-- A state-threaded random computation. -/
def SR (α : Type) : Type := RState → α × RState

/-- `this.random()`: seeded mulberry32 when installed, else the next
`Math.random()` value from the entropy oracle. -/
def nextRand : SR ℚ := fun st =>
  match st.rng with
  | some s =>
      let r := mulberryStep s
      (r.1, { st with rng := some r.2 })
  | none => (st.ent st.entPos, { st with entPos := st.entPos + 1 })

/-- Monadic return for `SR`. -/
def spure {α : Type} (a : α) : SR α := fun st => (a, st)

/-- Monadic bind for `SR`. -/
def sbind {α β : Type} (f : SR α) (g : α → SR β) : SR β := fun st =>
  let r := f st
  g r.1 r.2

/-- Map over the result of an `SR` computation. -/
def smap {α β : Type} (h : α → β) (f : SR α) : SR β :=
  sbind f (fun a => spure (h a))

/-- Sequence a random computation over a list, collecting results in
order. -/
def smapM {α β : Type} (f : α → SR β) : List α → SR (List β)
  | [] => spure []
  | a :: as => sbind (f a) (fun b => smap (fun bs => b :: bs) (smapM f as))

/-! ## Cutter pipeline -/

/-- `generateEdgeVariation`: four sequential `random()` draws, one per
parameter, each mapped into its fixed fractional range. -/
def generateEdgeVariation : SR EdgeVariation :=
  sbind nextRand fun r1 =>
  sbind nextRand fun r2 =>
  sbind nextRand fun r3 =>
  sbind nextRand fun r4 =>
  spure { neckWidth := 2/5 + r1 * (1/5), headWidth := 7/10 + r2 * (3/10),
          headHeight := 4/5 + r3 * (3/10), neckHeight := 1/10 + r4 * (1/10) }

/-- One internal edge: a direction draw (`random() > 0.5 ? 1 : -1`) followed
by its shape variation. -/
def genEdge : SR EdgeSpec :=
  sbind nextRand fun r =>
  sbind generateEdgeVariation fun v =>
  spure { direction := if (1 : ℚ)/2 < r then 1 else -1, variation := v }

/-- The `horizontalEdges` array: `rows` rows of `cols - 1` edges, generated
row-major. -/
def genHorizontalEdges (rows cols : ℕ) : SR (List (List EdgeSpec)) :=
  smapM (fun _ => smapM (fun _ => genEdge) (List.range (cols - 1))) (List.range rows)

/-- The `verticalEdges` array: `rows - 1` rows of `cols` edges, generated
row-major. -/
def genVerticalEdges (rows cols : ℕ) : SR (List (List EdgeSpec)) :=
  smapM (fun _ => smapM (fun _ => genEdge) (List.range cols)) (List.range (rows - 1))

/-- Edge-array indexing for `createPiece` (`hEdges[row][col]`); the cutter
only indexes in range, where the default is never used. -/
def lget2 (m : List (List EdgeSpec)) (r c : ℕ) : EdgeSpec :=
  ((m.getD r []).getD c { direction := 0, variation := ⟨0, 0, 0, 0⟩ })

/-- A scatter slot of `generateShuffledPositions`: a randomized position in
cell `(originalRow, originalCol)`. -/
structure ScatterPos where
  x : ℚ
  y : ℚ
  originalRow : ℕ
  originalCol : ℕ
deriving DecidableEq, Repr

/-- One scatter slot of `generateShuffledPositions`: two `random()` draws
place the slot inside cell `(row, col)` with a 20% margin. -/
def posCell (w h : ℚ) (rows cols row col : ℕ) : SR ScatterPos :=
  sbind nextRand fun rx =>
  sbind nextRand fun ry =>
  let cw := w / (cols : ℚ)
  let ch := h / (rows : ℚ)
  spure { x := (col : ℚ) * cw + cw * (1/5) + rx * cw * (3/5)
          y := (row : ℚ) * ch + ch * (1/5) + ry * ch * (3/5)
          originalRow := row, originalCol := col }

/-- The initial (unshuffled) scatter grid: one slot per cell in row-major
order, offset randomly within the cell with a 20% margin. -/
def genPositions (w h : ℚ) (rows cols : ℕ) : SR (List ScatterPos) :=
  smap List.flatten
    (smapM (fun (row : ℕ) =>
      smapM (fun (col : ℕ) => posCell w h rows cols row col) (List.range cols))
      (List.range rows))

/-- Swap two list entries (`[l[i], l[j]] = [l[j], l[i]]`); out-of-range
indices leave the list unchanged (never hit by the cutter). -/
def swapL {α : Type} (l : List α) (i j : ℕ) : List α :=
  match l[i]?, l[j]? with
  | some a, some b => (l.set i b).set j a
  | _, _ => l

/-- Fuel for the rejection loop of the shuffle (the JS `do … while` retries
until `j ≠ i`; with the real generator this terminates almost surely, and
the fuel is never exhausted on the runs the claims quantify over). -/
def pickJFuel : ℕ := 100

/-- The `do { j = floor(random() * (i+1)) } while (j === i && n > 2)`
rejection sampler. -/
def pickJ (n i : ℕ) : ℕ → SR ℕ
  | 0 => spure 0
  | fuel + 1 =>
      sbind nextRand fun r =>
      let j := (⌊r * ((i : ℚ) + 1)⌋).toNat
      if j = i ∧ 2 < n then pickJ n i fuel else spure j

/-- The Fisher–Yates pass: `for (i = n-1; i > 0; i--) swap(i, pickJ i)`. -/
def fyLoop (n : ℕ) : ℕ → List ScatterPos → SR (List ScatterPos)
  | 0, l => spure l
  | i + 1, l =>
      sbind (pickJ n (i + 1) pickJFuel) fun j =>
      fyLoop n i (swapL l (i + 1) j)

/-- The post-pass cell test: does the slot now at index `i` come from the
cell a piece at index `i` would solve into? -/
def atOwnCell (cols : ℕ) (p : ScatterPos) (i : ℕ) : Bool :=
  p.originalRow == i / cols && p.originalCol == i % cols

/-- The explicit post-pass: scan indices `0 … n-1`; any slot sitting at its
own cell index is swapped with the next index (wrapping around). -/
def postPassGo (cols n : ℕ) : ℕ → ℕ → List ScatterPos → List ScatterPos
  | _, 0, l => l
  | i, rem + 1, l =>
      let l1 := match l[i]? with
        | some p => if atOwnCell cols p i then swapL l i ((i + 1) % n) else l
        | none => l
      postPassGo cols n (i + 1) rem l1

/-- `generateShuffledPositions`: randomized cell grid, Fisher–Yates shuffle
with the no-fixed-point rejection, then the explicit own-cell post-pass. -/
def generateShuffledPositions (w h : ℚ) (rows cols : ℕ) : SR (List ScatterPos) :=
  sbind (genPositions w h rows cols) fun ps =>
  sbind (fyLoop ps.length (ps.length - 1) ps) fun ps1 =>
  spure (postPassGo cols ps1.length 0 ps1.length ps1)

/-- A cut piece as produced by the seeded `createPiece` (the rasterized
bitmap is not modelled; its geometry is fully described by `tabs`,
`tabSize`, `tabPadding` and the cell dimensions). -/
structure CutPiece where
  id : ℕ
  row : ℕ
  col : ℕ
  correctX : ℚ
  correctY : ℚ
  x : ℚ
  y : ℚ
  currentX : ℚ
  currentY : ℚ
  width : ℚ
  height : ℚ
  tabs : Tabs
  tabSize : ℚ
  tabPadding : ℚ
  isPlaced : Bool
  isSelected : Bool
  isLocked : Bool
  rotation : ℚ
  zIndex : ℤ
deriving DecidableEq, Repr

/-- The seeded `createPiece`: derive the four side descriptors from the
shared edge arrays, size the canvas with the tab padding, and place the
piece at its pre-computed scatter position. -/
def createPiece (pw ph : ℚ) (rows cols : ℕ) (hEdges vEdges : List (List EdgeSpec))
    (id row col : ℕ) (scatterPos : ScatterPos) : CutPiece :=
  let x := (col : ℚ) * pw
  let y := (row : ℚ) * ph
  let tabs := pieceTabs rows cols (lget2 hEdges) (lget2 vEdges) row col
  let tabSize := min pw ph * (1/5)
  let tabPadding := tabSize * (3/2)
  { id := id, row := row, col := col
    correctX := x, correctY := y
    x := scatterPos.x, y := scatterPos.y
    currentX := scatterPos.x, currentY := scatterPos.y
    width := pw + tabPadding * 2, height := ph + tabPadding * 2
    tabs := tabs, tabSize := tabSize, tabPadding := tabPadding
    isPlaced := false, isSelected := false, isLocked := false
    rotation := 0, zIndex := (id : ℤ) }

/-- `generatePieces`: generate both edge arrays, then the shuffled scatter
positions, then build the pieces row-major with sequential ids. -/
def generatePieces (w h pw ph : ℚ) (rows cols : ℕ) : SR (List CutPiece) :=
  sbind (genHorizontalEdges rows cols) fun hEdges =>
  sbind (genVerticalEdges rows cols) fun vEdges =>
  sbind (generateShuffledPositions w h rows cols) fun scatter =>
  spure ((List.range rows).flatMap (fun row =>
    (List.range cols).map (fun col =>
      createPiece pw ph rows cols hEdges vEdges (row * cols + col) row col
        (scatter.getD (row * cols + col) ⟨0, 0, 0, 0⟩))))

/-- `Math.round` on an exact rational (round half toward `+∞`). -/
def jsRound (q : ℚ) : ℤ := ⌊q + 1/2⌋

/-- `Math.round(Math.sqrt(x))` for a nonnegative rational, computed exactly:
for `x = nu/de ≥ 0`, `round (sqrt x) = ⌊(⌊sqrt (4 nu de)⌋ / de + 1) / 2⌋`,
since `sqrt (4x) = sqrt (4 nu de) / de` and rounding half up is
`⌊(sqrt (4x) + 1) / 2⌋`. -/
def ratSqrtRound (q : ℚ) : ℕ :=
  (Nat.sqrt (4 * q.num.toNat * q.den) / q.den + 1) / 2

/-- The result of one cut. -/
structure CutResult where
  rows : ℕ
  cols : ℕ
  pieceWidth : ℚ
  pieceHeight : ℚ
  pieces : List CutPiece
deriving DecidableEq, Repr

/-- The seeded `cutImage` on an already-loaded image of pixel size
`w × h`: install the mulberry32 generator when a seed is given (`seed |= 0`
reduces it modulo `2^32`), compute the grid (`calculateGrid`: rounded from
the aspect, floored at 2×2 — note the row count is derived from the
*unclamped* column count, as in the source), then generate the pieces.  The
image decoding itself is outside the model. -/
def cutImage (w h pieceCount : ℕ) (seed : Option ℕ) (ent : ℕ → ℚ) : CutResult :=
  let st0 : RState := { rng := seed.map (fun s => s % m32), ent := ent, entPos := 0 }
  let cols0 : ℕ := ratSqrtRound ((pieceCount * w : ℚ) / (h : ℚ))
  let rows0 : ℕ := (jsRound ((cols0 * h : ℚ) / (w : ℚ))).toNat
  let cols := max 2 cols0
  let rows := max 2 rows0
  let pw : ℚ := (w : ℚ) / (cols : ℚ)
  let ph : ℚ := (h : ℚ) / (rows : ℚ)
  { rows := rows, cols := cols, pieceWidth := pw, pieceHeight := ph
    pieces := (generatePieces w h pw ph rows cols st0).1 }

/-! ## Concrete fixtures for counterexamples and witnesses -/

/-- A default piece for building concrete test states. -/
def pieceDflt : Piece :=
  { id := 0, row := 0, col := 0, correctX := 0, correctY := 0, currentX := 0, currentY := 0,
    width := 12, height := 12, tabPadding := 1, groupId := 0, zIndex := 0,
    isPlaced := false, isLocked := false, isSelected := false }

/-- The engine's initial camera. -/
def camDflt : Camera := { x := 0, y := 0, scale := 1 }

/-- An empty engine for building concrete test states. -/
def engDflt : Engine :=
  { pieces := [], selectedPieces := [], groups := [], nextGroupId := 0, placedPieces := 0,
    totalPieces := 0, camera := camDflt, canvasWidth := 800, canvasHeight := 600 }

/-- Concrete state for the flag-monotonicity counterexample: piece 0 placed
and locked (and not selected), piece 1 locked at `x = 100`. -/
def e7cex : Engine :=
  { engDflt with
    pieces := [{ pieceDflt with id := 0, isPlaced := true, isLocked := true },
               { pieceDflt with id := 1, currentX := 100, isLocked := true }]
    groups := [(0, [0]), (1, [1])], nextGroupId := 2, totalPieces := 2, placedPieces := 1 }

/-- A remote update for piece 0 claiming it unplaced and unlocked. -/
def rp7cex : RemotePiece :=
  { id := 0, currentX := 50, currentY := 50, isPlaced := false, isLocked := false,
    groupId := 0, zIndex := 0 }

/-- Concrete state for the z-order counterexample: pieces 0 and 1 share
group 0 (insertion order `[0, 1]`), with piece 0 above piece 1. -/
def e9cex : Engine :=
  { engDflt with
    pieces := [{ pieceDflt with id := 0, zIndex := 5 },
               { pieceDflt with id := 1, col := 1, zIndex := 3 }]
    groups := [(0, [0, 1])], nextGroupId := 1, totalPieces := 2 }

/-- A constant edge array for witnesses. -/
def cEdgeFun : ℕ → ℕ → EdgeSpec :=
  fun _ _ => { direction := 1, variation := ⟨1, 1, 1, 1⟩ }

/-- A zero entropy oracle (stands for `Math.random`, never consulted on the
seeded runs the witnesses exercise). -/
def zent : ℕ → ℚ := fun _ => 0

/-- "The first `pid`-match (if any) is already placed". -/
def placedAt (l : List Piece) (pid : ℕ) : Prop :=
  ∀ p, l.find? (fun q => q.id == pid) = some p → p.isPlaced = true

/-! ## C8: remote merges never touch locally selected pieces -/

/-- Position-wise preservation of the five remote-synced fields (and id). -/
def Keeps5 (ps qs : List Piece) : Prop :=
  ∀ (i : ℕ) (p : Piece), ps[i]? = some p → ∃ q : Piece, qs[i]? = some q ∧ q.id = p.id ∧
    q.currentX = p.currentX ∧ q.currentY = p.currentY ∧
    q.isPlaced = p.isPlaced ∧ q.isLocked = p.isLocked ∧ q.zIndex = p.zIndex

/-! ## C7: amended flag-monotonicity theorem -/

/-- Position-wise monotonicity of the two persistent flags. -/
def FlagsMono (ps qs : List Piece) : Prop :=
  ∀ (i : ℕ) (p : Piece), ps[i]? = some p → ∃ q : Piece, qs[i]? = some q ∧
    (p.isPlaced = true → q.isPlaced = true) ∧ (p.isLocked = true → q.isLocked = true)

/-! ## C9: drag selection and z-order — amended theorem -/

/-- `findIdxBy` on an id predicate only looks at the id sequence. -/
def idIdx (pid : ℕ) : List ℕ → Option ℕ
  | [] => none
  | a :: as => if a = pid then some 0 else (idIdx pid as).map (fun j => j + 1)

/-- `maxZof` only looks at the z-index sequence. -/
def mzInts : List ℤ → ℤ
  | [] => 0
  | z :: zs => zs.foldl max z

/-! ## C2: the group partition invariant -/

/-- Keys of the group map are unique (JS `Map`). -/
def keysND (gs : List (ℕ × List ℕ)) : Prop := (gs.map Prod.fst).Nodup

/-- Member sets behind distinct keys are disjoint. -/
def lookDisj (gs : List (ℕ × List ℕ)) : Prop :=
  ∀ (k1 k2 : ℕ) (m1 m2 : List ℕ), k1 ≠ k2 →
    alookup k1 gs = some m1 → alookup k2 gs = some m2 → ∀ x ∈ m1, x ∉ m2

/-- Every piece's `groupId` points at a group containing its id. -/
def covers (e : Engine) : Prop :=
  ∀ p ∈ e.pieces, ∃ m, alookup p.groupId e.groups = some m ∧ p.id ∈ m

/-- The grouping invariant maintained by `setPieces` and `mergeGroups`. -/
def GroupInv (e : Engine) : Prop :=
  keysND e.groups ∧ lookDisj e.groups ∧ covers e ∧ (e.pieces.map Piece.id).Nodup

/-- Two randomness states agree for the seeded run: identical installed
generator state, which is present. -/
def rngAgree (st1 st2 : RState) : Prop :=
  st1.rng = st2.rng ∧ st1.rng.isSome

/-- A random computation is seed-deterministic when, from agreeing seeded
states, it yields the same value and leaves agreeing seeded states. -/
def detp {α : Type} (f : SR α) : Prop :=
  ∀ st1 st2, rngAgree st1 st2 → (f st1).1 = (f st2).1 ∧ rngAgree (f st1).2 (f st2).2

/-- The cell tag of a scatter slot. -/
def tagOf (p : ScatterPos) : ℕ × ℕ := (p.originalRow, p.originalCol)

/-- The row-major list of grid cell tags. -/
def cellGrid (rows cols : ℕ) : List (ℕ × ℕ) :=
  (List.range rows).flatMap (fun r => (List.range cols).map (fun c => (r, c)))

/-- A randomness state with the seeded generator installed. -/
def seeded (st : RState) : Prop := st.rng.isSome

/-- `f` yields a value satisfying `P` from any seeded state, and leaves the
generator installed. -/
def SInv {α : Type} (f : SR α) (P : α → Prop) : Prop :=
  ∀ st, seeded st → P (f st).1 ∧ seeded (f st).2

/-- A scatter slot lying strictly inside its tag's grid cell, with the 20%
margin of `genPositions`. -/
def GoodP (w h : ℚ) (rows cols : ℕ) (p : ScatterPos) : Prop :=
  (p.originalCol : ℚ) * (w / (cols : ℚ)) + (w / (cols : ℚ)) * (1/5) ≤ p.x ∧
  p.x < (p.originalCol : ℚ) * (w / (cols : ℚ)) + (w / (cols : ℚ)) * (4/5) ∧
  (p.originalRow : ℚ) * (h / (rows : ℚ)) + (h / (rows : ℚ)) * (1/5) ≤ p.y ∧
  p.y < (p.originalRow : ℚ) * (h / (rows : ℚ)) + (h / (rows : ℚ)) * (4/5)

/-- The integer numerator of one mulberry32 output. -/
def mval (s0 : ℕ) : ℕ :=
  let s := (s0 + 0x6D2B79F5) % m32
  let t1 := ((s ^^^ (s >>> 15)) * (1 ||| s)) % m32
  let t2 := ((t1 + ((t1 ^^^ (t1 >>> 7)) * (61 ||| t1)) % m32) % m32) ^^^ t1
  t2 ^^^ (t2 >>> 14)

/-- The first piece of a concrete seeded cut, used as a witness input. -/
def cp0 : CutPiece :=
  ((cutImage 100 80 4 (some 7) zent).pieces).getD 0
    (createPiece 1 1 1 1 [] [] 0 0 0 ⟨0, 0, 0, 0⟩)

/-! ## Theorems -/

/-! ## Generic lemmas about the list helpers -/

theorem modifyAt_length {α : Type} (f : α → α) :
    ∀ (i : ℕ) (l : List α), (modifyAt f i l).length = l.length := by
  intro i l
  induction l generalizing i with
  | nil => cases i <;> rfl
  | cons a as ih => cases i with
    | zero => rfl
    | succ n => simpa [modifyAt] using ih n

theorem getElem?_modifyAt {α : Type} (f : α → α) :
    ∀ (j : ℕ) (l : List α) (i : ℕ),
      (modifyAt f j l)[i]? = if i = j then (l[i]?).map f else l[i]? := by
  intro j l
  induction l generalizing j with
  | nil => intro i; cases j <;> simp [modifyAt]
  | cons a as ih =>
    intro i
    cases j with
    | zero => cases i <;> simp [modifyAt]
    | succ n =>
      cases i with
      | zero => simp [modifyAt]
      | succ m => simpa [modifyAt] using ih n m

theorem updateFirstBy_length {α : Type} (q : α → Bool) (f : α → α) :
    ∀ l : List α, (updateFirstBy q f l).length = l.length := by
  intro l
  induction l with
  | nil => rfl
  | cons a as ih =>
    by_cases h : q a = true
    · simp [updateFirstBy, h]
    · simp only [updateFirstBy, Bool.not_eq_true] at *
      simp [h, ih]

/-- `updateFirstBy` changes at most one position, applying `f` to an element
satisfying `q` there. -/
theorem getElem?_updateFirstBy {α : Type} (q : α → Bool) (f : α → α) :
    ∀ (l : List α) (i : ℕ),
      (updateFirstBy q f l)[i]? = l[i]?
      ∨ ∃ a, l[i]? = some a ∧ q a = true ∧ (updateFirstBy q f l)[i]? = some (f a) := by
  intro l
  induction l with
  | nil => intro i; left; rfl
  | cons a as ih =>
    intro i
    cases hqa : q a with
    | true =>
      cases i with
      | zero => right; exact ⟨a, by simp, hqa, by simp [updateFirstBy, hqa]⟩
      | succ m => left; simp [updateFirstBy, hqa]
    | false =>
      cases i with
      | zero => left; simp [updateFirstBy, hqa]
      | succ m =>
        rcases ih m with h1 | ⟨b, hb, hqb, hb2⟩
        · left; simp [updateFirstBy, hqa, h1]
        · right
          refine ⟨b, by simpa using hb, hqb, ?_⟩
          simp only [updateFirstBy, hqa, Bool.false_eq_true, if_false, List.getElem?_cons_succ]
          exact hb2

/-- A position whose element does not satisfy `q` is untouched by
`updateFirstBy`. -/
theorem getElem?_updateFirstBy_of_not {α : Type} {q : α → Bool} {f : α → α}
    {l : List α} {i : ℕ} {a : α} (hi : l[i]? = some a) (ha : ¬ q a = true) :
    (updateFirstBy q f l)[i]? = some a := by
  rcases getElem?_updateFirstBy q f l i with h | ⟨b, hb, hqb, hb2⟩
  · rw [h, hi]
  · rw [hi] at hb
    cases hb
    exact absurd hqb ha

/-- If no element matches, `updateFirstBy` is the identity. -/
theorem updateFirstBy_of_find?_none {α : Type} {q : α → Bool} (f : α → α)
    {l : List α} (h : l.find? q = none) : updateFirstBy q f l = l := by
  induction l with
  | nil => rfl
  | cons a as ih =>
    rw [List.find?_cons] at h
    cases hqa : q a with
    | true => rw [hqa] at h; cases h
    | false =>
      rw [hqa] at h
      simp [updateFirstBy, hqa, ih h]

/-- Every piece's `zIndex` is bounded by `maxZof`. -/
theorem zIndex_le_maxZof {l : List Piece} {p : Piece} (hp : p ∈ l) :
    p.zIndex ≤ maxZof l := by
  have key : ∀ (ps : List Piece) (z : ℤ),
      z ≤ ps.foldl (fun m q => max m q.zIndex) z ∧
      ∀ q ∈ ps, q.zIndex ≤ ps.foldl (fun m q => max m q.zIndex) z := by
    intro ps
    induction ps with
    | nil => intro z; exact ⟨le_refl z, by intro q hq; cases hq⟩
    | cons a as ih =>
      intro z
      refine ⟨?_, ?_⟩
      · exact le_trans (le_max_left z a.zIndex) (ih (max z a.zIndex)).1
      · intro q hq
        rcases List.mem_cons.mp hq with rfl | hq'
        · exact le_trans (le_max_right z q.zIndex) (ih (max z q.zIndex)).1
        · exact (ih (max z a.zIndex)).2 q hq'
  cases l with
  | nil => cases hp
  | cons a as =>
    rcases List.mem_cons.mp hp with rfl | hp'
    · exact (key as p.zIndex).1
    · exact (key as a.zIndex).2 p hp'

/-! ## C3: complementary internal edges -/

/-- **C3.**  For every internal grid edge, the side descriptors recorded on
the two touching pieces have tab directions that are exact negations of each
other and reference the identical shape-variation parameters: both sides are
derived from the one shared entry of the edge arrays (`hEdges` for an edge
between columns, `vEdges` for an edge between rows), never independently
randomized. -/
theorem pieceTabs_complementary (rows cols : ℕ) (hE vE : ℕ → ℕ → EdgeSpec) (row col : ℕ) :
    (col + 1 < cols →
      ((pieceTabs rows cols hE vE row col).right.direction =
          -(pieceTabs rows cols hE vE row (col + 1)).left.direction ∧
        (pieceTabs rows cols hE vE row col).right.direction = (hE row col).direction ∧
        (pieceTabs rows cols hE vE row col).right.variation = some (hE row col).variation ∧
        (pieceTabs rows cols hE vE row (col + 1)).left.variation = some (hE row col).variation))
    ∧ (row + 1 < rows →
      ((pieceTabs rows cols hE vE row col).bottom.direction =
          -(pieceTabs rows cols hE vE (row + 1) col).top.direction ∧
        (pieceTabs rows cols hE vE row col).bottom.direction = (vE row col).direction ∧
        (pieceTabs rows cols hE vE row col).bottom.variation = some (vE row col).variation ∧
        (pieceTabs rows cols hE vE (row + 1) col).top.variation = some (vE row col).variation)) := by
  constructor
  · intro h
    have h1 : col ≠ cols - 1 := by omega
    have h2 : col + 1 ≠ 0 := by omega
    simp [pieceTabs, h1, h2]
  · intro h
    have h1 : row ≠ rows - 1 := by omega
    have h2 : row + 1 ≠ 0 := by omega
    simp [pieceTabs, h1, h2]

/-- Witness for C3 at a concrete 2×2 grid. -/
theorem pieceTabs_complementary_witness :
    (0 + 1 < 2) ∧
    ((pieceTabs 2 2 cEdgeFun cEdgeFun 0 0).right.direction =
        -(pieceTabs 2 2 cEdgeFun cEdgeFun 0 (0 + 1)).left.direction ∧
      (pieceTabs 2 2 cEdgeFun cEdgeFun 0 0).right.direction = (cEdgeFun 0 0).direction ∧
      (pieceTabs 2 2 cEdgeFun cEdgeFun 0 0).right.variation = some (cEdgeFun 0 0).variation ∧
      (pieceTabs 2 2 cEdgeFun cEdgeFun 0 (0 + 1)).left.variation = some (cEdgeFun 0 0).variation) :=
  ⟨by decide, (pieceTabs_complementary 2 2 cEdgeFun cEdgeFun 0 0).1 (by decide)⟩

/-! ## C10: camera scale clamping -/

/-- **C10, counterexample.**  Restoring a saved camera whose scale is `100`
leaves the engine's camera scale at `100`, outside `[0.1, 5]`: the load path
(`restoreSharedPuzzle`) trusts the stored value verbatim rather than
clamping it. -/
theorem restore_camera_no_clamp_cex :
    (restoreSharedPuzzleCamera { x := 0, y := 0, scale := 1 }
        (some { x := 5, y := 7, scale := 100 })).scale = 100 ∧
    ¬ ((restoreSharedPuzzleCamera { x := 0, y := 0, scale := 1 }
        (some { x := 5, y := 7, scale := 100 })).scale ≤ 5) := by
  refine ⟨rfl, ?_⟩
  norm_num [restoreSharedPuzzleCamera]

/-- **C10, amended.**  The mouse-wheel zoom clamps the resulting camera
scale into `[0.1, 5]` for every prior camera state; but restoring camera
state from a loaded puzzle assigns the stored scale verbatim, so an
out-of-range saved value survives the load unclamped. -/
theorem camera_scale_clamping_amended :
    (∀ (cam : Camera) (mouseX mouseY deltaY : ℚ),
      1/10 ≤ (handleWheelCamera cam mouseX mouseY deltaY).scale ∧
      (handleWheelCamera cam mouseX mouseY deltaY).scale ≤ 5) ∧
    (∀ (cam saved : Camera),
      (restoreSharedPuzzleCamera cam (some saved)).scale = saved.scale) := by
  constructor
  · intro cam mouseX mouseY deltaY
    constructor
    · exact le_max_left _ _
    · exact max_le (by norm_num) (min_le_left _ _)
  · intro cam saved
    rfl

/-! ## C7: flag monotonicity — counterexample and amended theorem -/

/-- **C7, counterexample.**  The claim fails on two fronts.
(1) Piece 0 of `e7cex` is placed and locked and not locally selected; after
merging a remote update that reports it unplaced/unlocked, both flags are
back to `false` — `handleRemotePuzzleUpdate` assigns the remote values
verbatim.  (2) Piece 1 of `e7cex` is locked, yet a selection box around its
center selects it (`selectPiecesInBox` has no lock filter), and the
subsequent drag moves it (`currentX` goes from `100` to `105`): a locked
piece is still selectable and movable. -/
theorem flags_and_lock_cex :
    ((handleRemotePuzzleUpdate e7cex [rp7cex]).pieces.map
        (fun p => (p.isPlaced, p.isLocked)) = [(false, false), (false, true)]) ∧
    (((selectPiecesInBox e7cex 90 0 120 20).pieces.map
        (fun p => (p.isLocked, p.isSelected))) = [(true, false), (true, true)]) ∧
    ((moveSelectedPieces (selectPiecesInBox e7cex 90 0 120 20) 5 0).pieces.map
        (fun p => p.currentX) = [0, 105]) := by
  refine ⟨?_, ?_, ?_⟩ <;> with_unfolding_all decide

/-! ## C9: drag activation and z-order — counterexample (amended theorem
follows further below) -/

/-- **C9, counterexample.**  In `e9cex`, piece 0 (`zIndex = 5`) is drawn
above piece 1 (`zIndex = 3`); both are in group 0 with member insertion
order `[0, 1]`.  Dragging piece 0 re-assigns `zIndex` by member-list
position (`maxZ + index + 1`), giving piece 0 `zIndex = 6` and piece 1
`zIndex = 7`: afterwards piece 0 is strictly *below* piece 1, so the
relative z ordering among the group's members is inverted, not preserved. -/
theorem activatePieceDrag_zorder_cex :
    (e9cex.pieces[0]?.map Piece.zIndex = some 5) ∧
    (e9cex.pieces[1]?.map Piece.zIndex = some 3) ∧
    ((activatePieceDrag e9cex 0).pieces[0]?.map Piece.zIndex = some 6) ∧
    ((activatePieceDrag e9cex 0).pieces[1]?.map Piece.zIndex = some 7) := by
  refine ⟨?_, ?_, ?_, ?_⟩ <;> with_unfolding_all decide

/-! ## C6: snap idempotence for the placed-piece counter -/

/-- Interplay of id-keyed `find?` and `updateFirstBy` when the update
preserves ids: updating the first `pid`-piece rewrites the first
`pid`-match by `f` and leaves every other id's first match unchanged. -/
theorem find?_updateFirstBy_id {f : Piece → Piece} (hid : ∀ p, (f p).id = p.id)
    (pid pid2 : ℕ) :
    ∀ l : List Piece,
      (updateFirstBy (fun p => p.id == pid) f l).find? (fun p => p.id == pid2)
        = if pid2 = pid then (l.find? (fun p => p.id == pid)).map f
          else l.find? (fun p => p.id == pid2) := by
  intro l
  induction l with
  | nil => by_cases h : pid2 = pid <;> simp [updateFirstBy, h]
  | cons a as ih =>
    by_cases haid : a.id = pid
    · have hb : (a.id == pid) = true := by simpa using haid
      have hfb : ((f a).id == pid) = true := by simp [hid, haid]
      by_cases h : pid2 = pid
      · subst h
        simp [updateFirstBy, hb, List.find?_cons, hfb]
      · have hb2 : (a.id == pid2) = false := by simp [haid, Ne.symm h]
        have hfb2 : ((f a).id == pid2) = false := by simp [hid, haid, Ne.symm h]
        simp [updateFirstBy, hb, List.find?_cons, hfb2, hb2, if_neg h]
    · have hb : (a.id == pid) = false := by simp [haid]
      by_cases h : pid2 = pid
      · subst h
        simp [updateFirstBy, hb, List.find?_cons, ih]
      · by_cases haid2 : a.id = pid2
        · have hb2 : (a.id == pid2) = true := by simpa using haid2
          simp [updateFirstBy, hb, List.find?_cons, hb2, if_neg h]
        · have hb2 : (a.id == pid2) = false := by simp [haid2]
          simp [updateFirstBy, hb, List.find?_cons, hb2, if_neg h, ih]

/-- The piece-list component of a `snapStep` is an id-keyed
`updateFirstBy snapP` (a missing id makes both a no-op). -/
theorem snapStep_fst (st : List Piece × ℕ) (pid : ℕ) :
    (snapStep st pid).1 = updateFirstBy (fun p => p.id == pid) snapP st.1 := by
  unfold snapStep
  cases h : st.1.find? (fun p => p.id == pid) with
  | none => simp [updateFirstBy_of_find?_none snapP h]
  | some p => simp

/-- After a `snapStep` for `pid`, the first `pid`-match is placed; other
ids' first matches keep their placed status. -/
theorem placedAt_snapStep (st : List Piece × ℕ) (pid pid2 : ℕ)
    (h : pid2 = pid ∨ placedAt st.1 pid2) :
    placedAt (snapStep st pid).1 pid2 := by
  intro p hp
  rw [snapStep_fst, @find?_updateFirstBy_id snapP (fun p => rfl) pid pid2 st.1] at hp
  by_cases hc : pid2 = pid
  · rw [if_pos hc] at hp
    cases hfind : st.1.find? (fun q => q.id == pid) with
    | none => rw [hfind] at hp; cases hp
    | some q =>
      rw [hfind] at hp
      cases hp
      rfl
  · rw [if_neg hc] at hp
    rcases h with h | h
    · exact absurd h hc
    · exact h p hp

/-- After the whole member fold, every member id's first match is placed
(and previously-placed first matches stay placed). -/
theorem placedAt_foldl_snapStep :
    ∀ (mem : List ℕ) (st : List Piece × ℕ) (pid : ℕ),
      (pid ∈ mem ∨ placedAt st.1 pid) →
      placedAt (mem.foldl snapStep st).1 pid := by
  intro mem
  induction mem with
  | nil =>
    intro st pid h
    rcases h with h | h
    · cases h
    · exact h
  | cons m ms ih =>
    intro st pid h
    rw [List.foldl_cons]
    rcases h with h | h
    · rcases List.mem_cons.mp h with hm1 | hm
      · exact ih _ pid (Or.inr (placedAt_snapStep st m pid (Or.inl hm1)))
      · exact ih _ pid (Or.inl hm)
    · by_cases hc : pid = m
      · exact ih _ pid (Or.inr (placedAt_snapStep st m pid (Or.inl hc)))
      · exact ih _ pid (Or.inr (placedAt_snapStep st m pid (Or.inr h)))

/-- A member fold over pieces whose member first matches are all placed
leaves the counter unchanged. -/
theorem foldl_snapStep_counter :
    ∀ (mem : List ℕ) (st : List Piece × ℕ),
      (∀ pid ∈ mem, placedAt st.1 pid) →
      (mem.foldl snapStep st).2 = st.2 := by
  intro mem
  induction mem with
  | nil => intro st _; rfl
  | cons m ms ih =>
    intro st h
    rw [List.foldl_cons]
    have hstep2 : (snapStep st m).2 = st.2 := by
      unfold snapStep
      cases hfind : st.1.find? (fun p => p.id == m) with
      | none => simp
      | some p =>
        have : p.isPlaced = true := h m (List.mem_cons_self m ms) p hfind
        simp [this]
    have hrest : ∀ pid ∈ ms, placedAt (snapStep st m).1 pid := by
      intro pid hpid
      by_cases hc : pid = m
      · exact placedAt_snapStep st m pid (Or.inl hc)
      · exact placedAt_snapStep st m pid (Or.inr (h pid (List.mem_cons_of_mem m hpid)))
    rw [ih _ hrest, hstep2]

/-- **C6.**  Snapping a group to its final position is idempotent on the
placed-piece counter: a second `snapGroupToFinalPosition` on the same group
(whose pieces now all have `isPlaced = true`) leaves `stats.placedPieces`
unchanged — the counter is bumped only on a piece's first `isPlaced`
transition. -/
theorem snapGroupToFinalPosition_counter_idempotent
    (e : Engine) (gid : ℕ) (oX oY oX2 oY2 : ℚ) :
    (snapGroupToFinalPosition (snapGroupToFinalPosition e gid oX oY) gid oX2 oY2).placedPieces
      = (snapGroupToFinalPosition e gid oX oY).placedPieces := by
  unfold snapGroupToFinalPosition
  cases hg : alookup gid e.groups with
  | none => simp [hg]
  | some mem =>
    simp only [hg]
    have hall : ∀ pid ∈ mem, placedAt (mem.foldl snapStep (e.pieces, e.placedPieces)).1 pid :=
      fun pid hpid => placedAt_foldl_snapStep mem _ pid (Or.inl hpid)
    simpa using foldl_snapStep_counter mem _ hall

theorem keeps5_refl (ps : List Piece) : Keeps5 ps ps :=
  fun _ p hp => ⟨p, hp, rfl, rfl, rfl, rfl, rfl, rfl⟩

theorem keeps5_trans {ps qs rs : List Piece} (h1 : Keeps5 ps qs) (h2 : Keeps5 qs rs) :
    Keeps5 ps rs := by
  intro i p hp
  obtain ⟨q, hq, e1, e2, e3, e4, e5, e6⟩ := h1 i p hp
  obtain ⟨r, hr, f1, f2, f3, f4, f5, f6⟩ := h2 i q hq
  exact ⟨r, hr, f1.trans e1, f2.trans e2, f3.trans e3, f4.trans e4, f5.trans e5, f6.trans e6⟩

/-- An `updateFirstBy` whose update function leaves the five fields and the
id alone is a `Keeps5` step. -/
theorem keeps5_updateFirstBy {q : Piece → Bool} {f : Piece → Piece}
    (hf : ∀ p, (f p).id = p.id ∧ (f p).currentX = p.currentX ∧ (f p).currentY = p.currentY ∧
      (f p).isPlaced = p.isPlaced ∧ (f p).isLocked = p.isLocked ∧ (f p).zIndex = p.zIndex)
    (ps : List Piece) : Keeps5 ps (updateFirstBy q f ps) := by
  intro i p hp
  rcases getElem?_updateFirstBy q f ps i with h | ⟨a, ha, _, ha2⟩
  · exact ⟨p, h.trans hp ▸ by rw [h, hp], rfl, rfl, rfl, rfl, rfl, rfl⟩
  · rw [hp] at ha
    cases ha
    obtain ⟨e1, e2, e3, e4, e5, e6⟩ := hf p
    exact ⟨f p, ha2, e1, e2, e3, e4, e5, e6⟩

/-- `rebuildGroups` only re-tags `groupId`s: a `Keeps5` step. -/
theorem keeps5_rebuildGroups (e : Engine) (saved : List RemotePiece) :
    Keeps5 e.pieces (rebuildGroups e saved).pieces := by
  unfold rebuildGroups
  simp only
  generalize saved.foldl (fun m sp => insertGrp m sp.groupId sp.id) [] = gm
  induction gm generalizing e with
  | nil => exact keeps5_refl e.pieces
  | cons g gs ih =>
    rw [List.foldl_cons]
    have hinner : ∀ (ids : List ℕ) (ps : List Piece),
        Keeps5 ps (ids.foldl
          (fun ps2 pid =>
            updateFirstBy (fun p => p.id == pid) (fun p => { p with groupId := g.1 }) ps2) ps) := by
      intro ids
      induction ids with
      | nil => exact fun ps => keeps5_refl ps
      | cons x xs ihx =>
        intro ps
        rw [List.foldl_cons]
        exact keeps5_trans (@keeps5_updateFirstBy (fun p => p.id == x)
          (fun p => { p with groupId := g.1 })
          (fun p => ⟨rfl, rfl, rfl, rfl, rfl, rfl⟩) ps) (ihx _)
    exact keeps5_trans (hinner g.2 e.pieces)
      (ih { e with pieces := g.2.foldl _ e.pieces })

/-- The overwrite stage of a remote merge never touches a position holding a
piece whose id is locally selected: every processed remote piece either is
itself skipped (id selected) or targets a different id. -/
theorem foldl_remote_skip_selected (sel : List ℕ) :
    ∀ (rs : List RemotePiece) (ps : List Piece) (i : ℕ) (p : Piece),
      ps[i]? = some p → p.id ∈ sel →
      (rs.foldl
        (fun ps2 rp =>
          if rp.id ∈ sel then ps2
          else updateFirstBy (fun pp => pp.id == rp.id) (remoteApply rp) ps2) ps)[i]?
        = some p := by
  intro rs
  induction rs with
  | nil => intro ps i p hp _; exact hp
  | cons rp rs ih =>
    intro ps i p hp hsel
    rw [List.foldl_cons]
    by_cases hskip : rp.id ∈ sel
    · rw [if_pos hskip]
      exact ih ps i p hp hsel
    · rw [if_neg hskip]
      have hne : ¬ ((fun pp => pp.id == rp.id) p = true) := by
        simp only [beq_iff_eq]
        intro hcontra
        exact hskip (hcontra ▸ hsel)
      exact ih _ i p (getElem?_updateFirstBy_of_not hp hne) hsel

/-- **C8.**  An inbound remote update never overwrites the state of a piece
whose id is currently locally selected: its `currentX`, `currentY`,
`isPlaced`, `isLocked` and `zIndex` are identical before and after the
merge (such ids are excluded from the overwrite stage, and the group
rebuild touches only `groupId`). -/
theorem handleRemotePuzzleUpdate_preserves_selected
    (e : Engine) (remote : List RemotePiece) (i : ℕ) (p : Piece)
    (hp : e.pieces[i]? = some p) (hsel : p.id ∈ localSelectedIds e) :
    ∃ p2 : Piece, (handleRemotePuzzleUpdate e remote).pieces[i]? = some p2 ∧
      p2.currentX = p.currentX ∧ p2.currentY = p.currentY ∧
      p2.isPlaced = p.isPlaced ∧ p2.isLocked = p.isLocked ∧ p2.zIndex = p.zIndex := by
  unfold handleRemotePuzzleUpdate
  simp only
  have h1 := foldl_remote_skip_selected (localSelectedIds e) remote e.pieces i p hp hsel
  obtain ⟨q, hq, _, e2, e3, e4, e5, e6⟩ :=
    keeps5_rebuildGroups { e with pieces := remote.foldl (fun ps2 rp => if rp.id ∈ localSelectedIds e then ps2 else updateFirstBy (fun pp => pp.id == rp.id) (remoteApply rp) ps2) e.pieces } remote i p h1
  exact ⟨q, hq, e2, e3, e4, e5, e6⟩

/-- Witness for C8: in `e9cex` with piece 0 selected, a remote update for
piece 0 leaves its synced fields unchanged. -/
theorem handleRemotePuzzleUpdate_preserves_selected_witness :
    ∃ p2 : Piece,
      (handleRemotePuzzleUpdate { e9cex with selectedPieces := [0] }
          [rp7cex]).pieces[0]? = some p2 ∧
      p2.currentX = 0 ∧ p2.currentY = 0 ∧
      p2.isPlaced = false ∧ p2.isLocked = false ∧ p2.zIndex = 5 := by
  have h := handleRemotePuzzleUpdate_preserves_selected
    { e9cex with selectedPieces := [0] } [rp7cex] 0
    { pieceDflt with id := 0, zIndex := 5 } (by decide) (by decide)
  simpa using h

theorem flagsMono_refl (ps : List Piece) : FlagsMono ps ps :=
  fun _ p hp => ⟨p, hp, id, id⟩

theorem flagsMono_trans {ps qs rs : List Piece} (h1 : FlagsMono ps qs) (h2 : FlagsMono qs rs) :
    FlagsMono ps rs := by
  intro i p hp
  obtain ⟨q, hq, f1, f2⟩ := h1 i p hp
  obtain ⟨r, hr, g1, g2⟩ := h2 i q hq
  exact ⟨r, hr, fun h => g1 (f1 h), fun h => g2 (f2 h)⟩

/-- An `updateFirstBy` whose update function never clears the flags is a
`FlagsMono` step. -/
theorem flagsMono_updateFirstBy (q : Piece → Bool) (f : Piece → Piece)
    (hf : ∀ p : Piece, (p.isPlaced = true → (f p).isPlaced = true) ∧
      (p.isLocked = true → (f p).isLocked = true))
    (ps : List Piece) : FlagsMono ps (updateFirstBy q f ps) := by
  intro i p hp
  rcases getElem?_updateFirstBy q f ps i with h | ⟨a, ha, _, ha2⟩
  · exact ⟨p, by rw [h, hp], id, id⟩
  · rw [hp] at ha
    cases ha
    exact ⟨f p, ha2, (hf p).1, (hf p).2⟩

/-- `FlagsMono` composes along any engine-state fold. -/
theorem flagsMono_foldl {β : Type} (s : Engine → β → Engine)
    (hs : ∀ (en : Engine) (b : β), FlagsMono en.pieces (s en b).pieces) :
    ∀ (xs : List β) (en : Engine), FlagsMono en.pieces (xs.foldl s en).pieces := by
  intro xs
  induction xs with
  | nil => intro en; exact flagsMono_refl en.pieces
  | cons x xs ih =>
    intro en
    rw [List.foldl_cons]
    exact flagsMono_trans (hs en x) (ih (s en x))

theorem flagsMono_moveGroup (e : Engine) (gid : ℕ) (dx dy : ℚ) :
    FlagsMono e.pieces (moveGroup e gid dx dy).pieces := by
  unfold moveGroup
  cases h : alookup gid e.groups with
  | none => exact flagsMono_refl e.pieces
  | some ids =>
    simp only
    have : ∀ (xs : List ℕ) (ps : List Piece),
        FlagsMono ps (xs.foldl
          (fun ps2 pid => updateFirstBy (fun p => p.id == pid)
            (fun p => { p with currentX := p.currentX + dx, currentY := p.currentY + dy }) ps2)
          ps) := by
      intro xs
      induction xs with
      | nil => exact fun ps => flagsMono_refl ps
      | cons x xs ihx =>
        intro ps
        rw [List.foldl_cons]
        exact flagsMono_trans (flagsMono_updateFirstBy (fun p => p.id == x)
          (fun p => { p with currentX := p.currentX + dx, currentY := p.currentY + dy })
          (fun p => ⟨id, id⟩) ps) (ihx _)
    exact this ids e.pieces

theorem flagsMono_mergeGroups (e : Engine) (a b : ℕ) :
    FlagsMono e.pieces (mergeGroups e a b).pieces := by
  unfold mergeGroups
  by_cases hab : a = b
  · rw [if_pos hab]; exact flagsMono_refl e.pieces
  · rw [if_neg hab]
    cases h1 : alookup a e.groups with
    | none => exact flagsMono_refl e.pieces
    | some pa =>
      cases h2 : alookup b e.groups with
      | none => exact flagsMono_refl e.pieces
      | some pb =>
        simp only
        have : ∀ (xs : List ℕ) (ps : List Piece),
            FlagsMono ps (xs.foldl
              (fun ps2 pid => updateFirstBy (fun p => p.id == pid)
                (fun p => { p with groupId := a }) ps2) ps) := by
          intro xs
          induction xs with
          | nil => exact fun ps => flagsMono_refl ps
          | cons x xs ihx =>
            intro ps
            rw [List.foldl_cons]
            exact flagsMono_trans (flagsMono_updateFirstBy (fun p => p.id == x)
              (fun p => { p with groupId := a })
              (fun p => ⟨id, id⟩) ps) (ihx _)
        exact this pb e.pieces

theorem flagsMono_adjStep (e : Engine) (i j : ℕ) (d : ℚ) :
    FlagsMono e.pieces (adjStep e i j d).pieces := by
  unfold adjStep
  cases h1 : e.pieces[i]? with
  | none => exact flagsMono_refl e.pieces
  | some piece =>
    cases h2 : e.pieces[j]? with
    | none => exact flagsMono_refl e.pieces
    | some neighbor =>
      simp only
      by_cases hlt : (neighbor.currentX + ((piece.col : ℚ) - (neighbor.col : ℚ)) * (piece.width - piece.tabPadding * 2) - piece.currentX) ^ 2 + (neighbor.currentY + ((piece.row : ℚ) - (neighbor.row : ℚ)) * (piece.height - piece.tabPadding * 2) - piece.currentY) ^ 2 < d ^ 2
      · rw [if_pos hlt]
        exact flagsMono_trans (flagsMono_moveGroup e piece.groupId _ _)
          (flagsMono_mergeGroups _ piece.groupId neighbor.groupId)
      · rw [if_neg hlt]
        exact flagsMono_refl e.pieces

theorem flagsMono_checkAdjacentSnapping (e : Engine) (i : ℕ) (d : ℚ) :
    FlagsMono e.pieces (checkAdjacentSnapping e i d).pieces := by
  unfold checkAdjacentSnapping
  cases h : e.pieces[i]? with
  | none => exact flagsMono_refl e.pieces
  | some piece =>
    simp only
    exact flagsMono_foldl (fun acc j => adjStep acc i j d)
      (fun en b => flagsMono_adjStep en i b d) _ e

/-- The pieces component of the member fold of `snapGroupToFinalPosition`
only ever applies `snapP`, which sets flags to `true`. -/
theorem flagsMono_foldl_snapStep :
    ∀ (mem : List ℕ) (st : List Piece × ℕ),
      FlagsMono st.1 (mem.foldl snapStep st).1 := by
  intro mem
  induction mem with
  | nil => intro st; exact flagsMono_refl st.1
  | cons m ms ih =>
    intro st
    rw [List.foldl_cons]
    refine flagsMono_trans ?_ (ih (snapStep st m))
    rw [snapStep_fst]
    exact flagsMono_updateFirstBy _ _ (fun p => ⟨fun _ => rfl, fun _ => rfl⟩) st.1

theorem flagsMono_snapGroupToFinalPosition (e : Engine) (gid : ℕ) (oX oY : ℚ) :
    FlagsMono e.pieces (snapGroupToFinalPosition e gid oX oY).pieces := by
  unfold snapGroupToFinalPosition
  cases h : alookup gid e.groups with
  | none => exact flagsMono_refl e.pieces
  | some mem =>
    simp only
    exact flagsMono_foldl_snapStep mem (e.pieces, e.placedPieces)

/-- **C7, amended.**  As stated the claim is false (see the counterexample):
a remote merge overwrites a non-selected piece's `isPlaced`/`isLocked`
verbatim (possibly back to `false`), and box selection does not exclude
locked pieces.  What the code does guarantee: (1) the local snapping path
(`checkSnapping`, hence `snapGroupToFinalPosition`, `moveGroup` and
`mergeGroups`) never clears `isPlaced` or `isLocked` once set; (2) a locked
piece is never returned by point hit-testing (`getPieceAt`), so it cannot
start a drag; (3) an inbound remote update assigns a non-selected matching
piece's position, flags and z-index verbatim from the remote data. -/
theorem flags_monotone_local_amended :
    (∀ e : Engine, FlagsMono e.pieces (checkSnapping e).pieces) ∧
    (∀ (alpha : ℕ → ℤ → ℤ → ℕ) (e : Engine) (x y : ℚ) (p : Piece),
      getPieceAt alpha e x y = some p → p.isLocked = false) ∧
    (∀ (e : Engine) (rp : RemotePiece) (p : Piece),
      e.pieces.find? (fun q => q.id == rp.id) = some p →
      rp.id ∉ localSelectedIds e →
      ∃ p2 : Piece,
        (handleRemotePuzzleUpdate e [rp]).pieces.find? (fun q => q.id == rp.id) = some p2 ∧
        p2.currentX = rp.currentX ∧ p2.currentY = rp.currentY ∧
        p2.isPlaced = rp.isPlaced ∧ p2.isLocked = rp.isLocked ∧ p2.zIndex = rp.zIndex) := by
  refine ⟨?_, ?_, ?_⟩
  · intro e
    unfold checkSnapping
    cases h : (selPieces e).find? (withinSnapB snapDistance) with
    | some piece => exact flagsMono_snapGroupToFinalPosition e piece.groupId _ _
    | none =>
      exact flagsMono_foldl (fun acc i => checkAdjacentSnapping acc i snapDistance)
        (fun en b => flagsMono_checkAdjacentSnapping en b snapDistance) _ e
  · intro alpha e x y p hp
    unfold getPieceAt at hp
    have := List.find?_some hp
    simp only [Bool.and_eq_true, Bool.not_eq_true'] at this
    exact this.1
  · intro e rp p hfind hnotsel
    unfold handleRemotePuzzleUpdate
    simp only [List.foldl_cons, List.foldl_nil, if_neg hnotsel]
    have h1 : (updateFirstBy (fun pp => pp.id == rp.id) (remoteApply rp)
        e.pieces).find? (fun q => q.id == rp.id) = some (remoteApply rp p) := by
      rw [@find?_updateFirstBy_id (remoteApply rp) (fun p => rfl) rp.id rp.id e.pieces,
        if_pos rfl, hfind]
      rfl
    unfold rebuildGroups
    simp only [List.foldl_cons, List.foldl_nil, insertGrp, alookup, Option.isSome_none,
      Bool.false_eq_true, if_false, List.nil_append]
    rw [@find?_updateFirstBy_id (fun q => { q with groupId := rp.groupId })
      (fun p => rfl) rp.id rp.id _, if_pos rfl, h1]
    exact ⟨_, rfl, rfl, rfl, rfl, rfl, rfl⟩

/-- Witness for the amended C7 at a concrete state: merging a remote report
for the unselected piece 0 of `e7cex` installs the remote values verbatim. -/
theorem flags_monotone_local_amended_witness :
    ∃ p2 : Piece,
      (handleRemotePuzzleUpdate e7cex [rp7cex]).pieces.find?
          (fun q => q.id == rp7cex.id) = some p2 ∧
      p2.currentX = rp7cex.currentX ∧ p2.currentY = rp7cex.currentY ∧
      p2.isPlaced = rp7cex.isPlaced ∧ p2.isLocked = rp7cex.isLocked ∧
      p2.zIndex = rp7cex.zIndex :=
  flags_monotone_local_amended.2.2 e7cex rp7cex
    { pieceDflt with id := 0, isPlaced := true, isLocked := true } (by decide) (by decide)

/-! ## C1: the final-position snap path -/

/-- With unique piece ids, updating the first `pid`-piece is a pointwise
map. -/
theorem updateFirstBy_id_eq_map {f : Piece → Piece} (hid : ∀ p, (f p).id = p.id) (pid : ℕ) :
    ∀ l : List Piece, (l.map Piece.id).Nodup →
      updateFirstBy (fun p => p.id == pid) f l
        = l.map (fun q => if q.id = pid then f q else q) := by
  intro l
  induction l with
  | nil => intro _; rfl
  | cons a as ih =>
    intro hnd
    rw [List.map_cons, List.nodup_cons] at hnd
    by_cases haid : a.id = pid
    · have hb : (a.id == pid) = true := by simpa using haid
      have : as.map (fun q => if q.id = pid then f q else q) = as := by
        rw [List.map_congr_left, List.map_id]
        intro q hq
        have : q.id ≠ pid := by
          intro hcontra
          exact hnd.1 (haid ▸ hcontra ▸ List.mem_map_of_mem Piece.id hq)
        simp [this]
      simp [updateFirstBy, hb, haid, this]
    · have hb : (a.id == pid) = false := by simp [haid]
      simp [updateFirstBy, hb, haid, ih hnd.2]

/-- The updated list keeps the original id sequence when `f` preserves
ids. -/
theorem map_id_of_updated {f : Piece → Piece} (hid : ∀ p, (f p).id = p.id) (pid : ℕ)
    (l : List Piece) :
    (l.map (fun q => if q.id = pid then f q else q)).map Piece.id = l.map Piece.id := by
  rw [List.map_map]
  apply List.map_congr_left
  intro q _
  by_cases h : q.id = pid <;> simp [h, hid]

/-- With unique piece ids and an idempotent id-preserving update, a fold of
first-match updates over a member list is a pointwise map guarded by
membership. -/
theorem foldl_updateFirstBy_id_eq_map {f : Piece → Piece}
    (hid : ∀ p, (f p).id = p.id) (hidem : ∀ p, f (f p) = f p) :
    ∀ (ids : List ℕ) (l : List Piece), (l.map Piece.id).Nodup →
      ids.foldl (fun l2 pid => updateFirstBy (fun p => p.id == pid) f l2) l
        = l.map (fun q => if q.id ∈ ids then f q else q) := by
  intro ids
  induction ids with
  | nil =>
    intro l _
    simp
  | cons m ms ih =>
    intro l hnd
    rw [List.foldl_cons, updateFirstBy_id_eq_map hid m l hnd,
      ih _ (by rw [map_id_of_updated hid]; exact hnd), List.map_map]
    apply List.map_congr_left
    intro q _
    by_cases h1 : q.id = m
    · by_cases h2 : q.id ∈ ms <;>
        simp [Function.comp, h1, h2, hid, hidem, List.mem_cons]
    · by_cases h2 : q.id ∈ ms <;>
        simp [Function.comp, h1, h2, hid, List.mem_cons]

/-- `snapP` is idempotent. -/
theorem snapP_idem (p : Piece) : snapP (snapP p) = snapP p := rfl

/-- The piece-list component of the whole member fold of
`snapGroupToFinalPosition`. -/
theorem foldl_snapStep_fst :
    ∀ (mem : List ℕ) (st : List Piece × ℕ),
      (mem.foldl snapStep st).1
        = mem.foldl (fun l pid => updateFirstBy (fun p => p.id == pid) snapP l) st.1 := by
  intro mem
  induction mem with
  | nil => intro st; rfl
  | cons m ms ih =>
    intro st
    rw [List.foldl_cons, List.foldl_cons, ih, snapStep_fst]

/-- **C1.**  On drag release, if some currently selected piece is within the
snap threshold of its solved position (the hypothesis names the first such
piece, which the loop in `checkSnapping` finds), then: every piece of that
piece's group is placed exactly at its own solved coordinates with
`isLocked = true`, `isSelected = false` and `isPlaced = true`; every piece
outside that group is untouched; the selection list becomes empty; and the
adjacency-snapping check is skipped (the group map is unchanged — no merge
happens). -/
theorem checkSnapping_final_snap (e : Engine) (p : Piece) (mem : List ℕ)
    (hnd : (e.pieces.map Piece.id).Nodup)
    (htrig : (selPieces e).find? (withinSnapB snapDistance) = some p)
    (hg : alookup p.groupId e.groups = some mem) :
    (∀ (i : ℕ) (q : Piece), e.pieces[i]? = some q → q.id ∈ mem →
      ∃ q2 : Piece, (checkSnapping e).pieces[i]? = some q2 ∧
        q2.currentX = q.correctX ∧ q2.currentY = q.correctY ∧
        q2.isLocked = true ∧ q2.isSelected = false ∧ q2.isPlaced = true) ∧
    (∀ (i : ℕ) (q : Piece), e.pieces[i]? = some q → q.id ∉ mem →
      (checkSnapping e).pieces[i]? = some q) ∧
    (checkSnapping e).selectedPieces = [] ∧
    (checkSnapping e).groups = e.groups := by
  have hpieces : (checkSnapping e).pieces
      = e.pieces.map (fun q => if q.id ∈ mem then snapP q else q) := by
    unfold checkSnapping snapGroupToFinalPosition
    rw [htrig]
    simp only [hg]
    rw [foldl_snapStep_fst,
      @foldl_updateFirstBy_id_eq_map snapP (fun _ => rfl) snapP_idem mem e.pieces hnd]
  have hsel : (checkSnapping e).selectedPieces = [] := by
    unfold checkSnapping snapGroupToFinalPosition
    rw [htrig]
    simp only [hg]
  have hgroups : (checkSnapping e).groups = e.groups := by
    unfold checkSnapping snapGroupToFinalPosition
    rw [htrig]
    simp only [hg]
  refine ⟨?_, ?_, hsel, hgroups⟩
  · intro i q hq hqmem
    refine ⟨snapP q, ?_, rfl, rfl, rfl, rfl, rfl⟩
    rw [hpieces, List.getElem?_map, hq]
    simp [hqmem]
  · intro i q hq hqmem
    rw [hpieces, List.getElem?_map, hq]
    simp [hqmem]

/-- Witness for C1: a 2-piece one-group state dragged to within the snap
threshold; on release both pieces land exactly on their solved positions,
locked and deselected, with the groups untouched. -/
theorem checkSnapping_final_snap_witness :
    (∃ q2 : Piece, (checkSnapping { e9cex with selectedPieces := [0] }).pieces[0]?
        = some q2 ∧
      q2.currentX = 0 ∧ q2.currentY = 0 ∧
      q2.isLocked = true ∧ q2.isSelected = false ∧ q2.isPlaced = true) ∧
    (checkSnapping { e9cex with selectedPieces := [0] }).selectedPieces = [] ∧
    (checkSnapping { e9cex with selectedPieces := [0] }).groups
      = ({ e9cex with selectedPieces := [0] } : Engine).groups := by
  have h := checkSnapping_final_snap { e9cex with selectedPieces := [0] }
    { pieceDflt with id := 0, zIndex := 5 } [0, 1]
    (by decide) (by with_unfolding_all decide) (by decide)
  refine ⟨?_, h.2.2.1, h.2.2.2⟩
  have h0 := h.1 0 { pieceDflt with id := 0, zIndex := 5 } (by decide) (by decide)
  simpa using h0

theorem findIdxBy_id_eq (pid : ℕ) :
    ∀ l : List Piece, findIdxBy (fun p => p.id == pid) l = idIdx pid (l.map Piece.id) := by
  intro l
  induction l with
  | nil => rfl
  | cons a as ih =>
    by_cases h : a.id = pid
    · simp [findIdxBy, idIdx, h]
    · simp [findIdxBy, idIdx, h, ih]

theorem findIdxBy_some {q : Piece → Bool} :
    ∀ {l : List Piece} {j : ℕ}, findIdxBy q l = some j →
      ∃ a, l[j]? = some a ∧ q a = true := by
  intro l
  induction l with
  | nil => intro j h; cases h
  | cons a as ih =>
    intro j h
    by_cases hq : q a = true
    · rw [findIdxBy, if_pos hq] at h
      cases h
      exact ⟨a, by simp, hq⟩
    · rw [findIdxBy, if_neg hq] at h
      cases hj : findIdxBy q as with
      | none => rw [hj] at h; cases h
      | some j0 =>
        rw [hj] at h
        cases h
        obtain ⟨b, hb, hqb⟩ := ih hj
        exact ⟨b, by simpa using hb, hqb⟩

theorem findIdxBy_of_nodup :
    ∀ {l : List Piece} {i : ℕ} {p : Piece}, (l.map Piece.id).Nodup → l[i]? = some p →
      findIdxBy (fun x => x.id == p.id) l = some i := by
  intro l
  induction l with
  | nil => intro i p _ h; cases h
  | cons a as ih =>
    intro i p hnd hp
    rw [List.map_cons, List.nodup_cons] at hnd
    cases i with
    | zero =>
      rw [List.getElem?_cons_zero] at hp
      cases hp
      simp [findIdxBy]
    | succ m =>
      rw [List.getElem?_cons_succ] at hp
      have hne : ¬ (a.id == p.id) = true := by
        simp only [beq_iff_eq]
        intro hcontra
        have : p.id ∈ as.map Piece.id :=
          List.mem_map_of_mem Piece.id (List.getElem?_mem hp)
        exact hnd.1 (hcontra ▸ this)
      rw [findIdxBy, if_neg hne, ih hnd.2 hp]
      rfl

/-- A fold of index-targeted updates that preserve an observation `g`
preserves the mapped `g` sequence. -/
theorem map_field_foldl_modifyAt {β γ : Type} (g : Piece → β) (f : γ → Piece → Piece)
    (ix : γ → ℕ) (hgf : ∀ c p, g (f c p) = g p) :
    ∀ (xs : List γ) (l : List Piece),
      ((xs.foldl (fun l2 c => modifyAt (f c) (ix c) l2) l).map g) = l.map g := by
  have hone : ∀ (c : γ) (i : ℕ) (l : List Piece), (modifyAt (f c) i l).map g = l.map g := by
    intro c i l
    induction l generalizing i with
    | nil => cases i <;> rfl
    | cons a as iha =>
      cases i with
      | zero => simp [modifyAt, hgf]
      | succ m => simp [modifyAt, iha m]
  intro xs
  induction xs with
  | nil => intro l; rfl
  | cons x xs ih =>
    intro l
    rw [List.foldl_cons, ih, hone]

/-- The selection loop of `activatePieceDrag`: appends the first-match index
of every member id (in member order), only sets `isSelected`, and leaves
ids, z-indexes and groups alone; every processed member's piece ends up
selected. -/
theorem dragSelectStep_foldl_spec :
    ∀ (mem : List ℕ) (acc : Engine),
      (mem.foldl dragSelectStep acc).selectedPieces
          = acc.selectedPieces
            ++ mem.filterMap (fun pid => findIdxBy (fun p => p.id == pid) acc.pieces) ∧
      (mem.foldl dragSelectStep acc).groups = acc.groups ∧
      (mem.foldl dragSelectStep acc).pieces.map Piece.id = acc.pieces.map Piece.id ∧
      (mem.foldl dragSelectStep acc).pieces.map Piece.zIndex = acc.pieces.map Piece.zIndex ∧
      (∀ (i : ℕ) (p : Piece), acc.pieces[i]? = some p →
        ∃ p2 : Piece, (mem.foldl dragSelectStep acc).pieces[i]? = some p2 ∧
          (p2 = p ∨ p2 = { p with isSelected := true })) ∧
      (∀ pid ∈ mem, ∀ j : ℕ, findIdxBy (fun p => p.id == pid) acc.pieces = some j →
        ∃ p2 : Piece, (mem.foldl dragSelectStep acc).pieces[j]? = some p2 ∧
          p2.isSelected = true) := by
  intro mem
  induction mem with
  | nil =>
    intro acc
    refine ⟨by simp, rfl, rfl, rfl, ?_, ?_⟩
    · exact fun i p hp => ⟨p, hp, Or.inl rfl⟩
    · intro pid hpid; cases hpid
  | cons m ms ih =>
    intro acc
    rw [List.foldl_cons]
    have hids : (dragSelectStep acc m).pieces.map Piece.id = acc.pieces.map Piece.id := by
      unfold dragSelectStep
      cases h : findIdxBy (fun p => p.id == m) acc.pieces with
      | none => rfl
      | some j =>
        simp only
        exact map_field_foldl_modifyAt Piece.id
          (fun _ p => { p with isSelected := true }) (fun _ => j)
          (fun _ _ => rfl) [()] acc.pieces
    have hz : (dragSelectStep acc m).pieces.map Piece.zIndex = acc.pieces.map Piece.zIndex := by
      unfold dragSelectStep
      cases h : findIdxBy (fun p => p.id == m) acc.pieces with
      | none => rfl
      | some j =>
        simp only
        exact map_field_foldl_modifyAt Piece.zIndex
          (fun _ p => { p with isSelected := true }) (fun _ => j)
          (fun _ _ => rfl) [()] acc.pieces
    have hfindstable : ∀ pid : ℕ,
        findIdxBy (fun p => p.id == pid) (dragSelectStep acc m).pieces
          = findIdxBy (fun p => p.id == pid) acc.pieces := by
      intro pid
      rw [findIdxBy_id_eq, findIdxBy_id_eq, hids]
    obtain ⟨i1, i2, i3, i4, i5, i6⟩ := ih (dragSelectStep acc m)
    have hselstep : (dragSelectStep acc m).selectedPieces
        = acc.selectedPieces
          ++ (match findIdxBy (fun p => p.id == m) acc.pieces with
              | some j => [j]
              | none => []) := by
      unfold dragSelectStep
      cases h : findIdxBy (fun p => p.id == m) acc.pieces with
      | none => simp
      | some j => simp
    have hgroupstep : (dragSelectStep acc m).groups = acc.groups := by
      unfold dragSelectStep
      cases h : findIdxBy (fun p => p.id == m) acc.pieces with
      | none => rfl
      | some j => rfl
    have hstepPointwise : ∀ (i : ℕ) (p : Piece), acc.pieces[i]? = some p →
        ∃ p2 : Piece, (dragSelectStep acc m).pieces[i]? = some p2 ∧
          (p2 = p ∨ p2 = { p with isSelected := true }) := by
      intro i p hp
      unfold dragSelectStep
      cases h : findIdxBy (fun p => p.id == m) acc.pieces with
      | none => exact ⟨p, hp, Or.inl rfl⟩
      | some j =>
        simp only
        rw [getElem?_modifyAt]
        by_cases hij : i = j
        · rw [if_pos hij, hp]
          exact ⟨_, rfl, Or.inr rfl⟩
        · rw [if_neg hij]
          exact ⟨p, hp, Or.inl rfl⟩
    refine ⟨?_, hgroupstep ▸ i2, hids ▸ i3, hz ▸ i4, ?_, ?_⟩
    · rw [i1, hselstep]
      simp only [List.filterMap_cons]
      cases h : findIdxBy (fun p => p.id == m) acc.pieces with
      | none =>
        simp only [List.append_assoc, List.nil_append]
        congr 1
        apply List.filterMap_congr
        intro pid _
        rw [hfindstable]
      | some j =>
        simp only [List.append_assoc, List.singleton_append]
        congr 2
        apply List.filterMap_congr
        intro pid _
        rw [hfindstable]
    · intro i p hp
      obtain ⟨p1, hp1, hd1⟩ := hstepPointwise i p hp
      obtain ⟨p2, hp2, hd2⟩ := i5 i p1 hp1
      refine ⟨p2, hp2, ?_⟩
      rcases hd1 with rfl | rfl
      · exact hd2
      · rcases hd2 with rfl | rfl
        · exact Or.inr rfl
        · exact Or.inr rfl
    · intro pid hpid j hj
      rcases List.mem_cons.mp hpid with hm1 | hpid'
      · -- the head member: selected by this step, stays selected afterwards
        subst hm1
        have hstep : ∃ p2 : Piece, (dragSelectStep acc pid).pieces[j]? = some p2 ∧
            p2.isSelected = true := by
          unfold dragSelectStep
          rw [hj]
          simp only
          rw [getElem?_modifyAt, if_pos rfl]
          obtain ⟨a, ha, _⟩ := findIdxBy_some hj
          rw [ha]
          exact ⟨_, rfl, rfl⟩
        obtain ⟨p1, hp1, hp1sel⟩ := hstep
        obtain ⟨p2, hp2, hd⟩ := i5 j p1 hp1
        refine ⟨p2, hp2, ?_⟩
        rcases hd with rfl | rfl
        · exact hp1sel
        · rfl
      · exact i6 pid hpid' j (by rw [hfindstable, hj])

theorem maxZof_eq_mzInts : ∀ l : List Piece, maxZof l = mzInts (l.map Piece.zIndex) := by
  intro l
  cases l with
  | nil => rfl
  | cons p ps =>
    show ps.foldl (fun m q => max m q.zIndex) p.zIndex = (ps.map Piece.zIndex).foldl max p.zIndex
    rw [List.foldl_map]

/-- The z-assignment fold of `bringSelectedToFront`: with distinct selection
indices, the piece behind the `k`-th reference gets `maxZ + (n + k) + 1`
(`n` the enumeration offset) and every non-selected position is untouched. -/
theorem assignZ_spec (maxZ : ℤ) :
    ∀ (sel : List ℕ) (n : ℕ) (ps : List Piece), sel.Nodup →
      (∀ i : ℕ, i ∉ sel →
        ((sel.enumFrom n).foldl
          (fun ps2 ii => modifyAt (fun p => { p with zIndex := maxZ + ii.1 + 1 }) ii.2 ps2)
          ps)[i]? = ps[i]?) ∧
      (∀ k idx : ℕ, sel[k]? = some idx →
        ((sel.enumFrom n).foldl
          (fun ps2 ii => modifyAt (fun p => { p with zIndex := maxZ + ii.1 + 1 }) ii.2 ps2)
          ps)[idx]? = (ps[idx]?).map (fun p => { p with zIndex := maxZ + (n + k : ℕ) + 1 })) := by
  intro sel
  induction sel with
  | nil =>
    intro n ps _
    refine ⟨fun i _ => rfl, fun k idx h => ?_⟩
    cases h
  | cons x xs ih =>
    intro n ps hnd
    rw [List.nodup_cons] at hnd
    rw [List.enumFrom_cons, List.foldl_cons]
    obtain ⟨ih1, ih2⟩ := ih (n + 1)
      (modifyAt (fun p => { p with zIndex := maxZ + (n : ℕ) + 1 }) x ps) hnd.2
    constructor
    · intro i hi
      have hix : i ≠ x := fun hcontra => hi (hcontra ▸ List.mem_cons_self x xs)
      have hixs : i ∉ xs := fun hcontra => hi (List.mem_cons_of_mem x hcontra)
      rw [ih1 i hixs, getElem?_modifyAt, if_neg hix]
    · intro k idx hk
      cases k with
      | zero =>
        rw [List.getElem?_cons_zero] at hk
        injection hk with hk
        subst hk
        rw [ih1 x hnd.1, getElem?_modifyAt, if_pos rfl]
        simp
      | succ k0 =>
        rw [List.getElem?_cons_succ] at hk
        have hne : idx ≠ x := by
          intro hcontra
          exact hnd.1 (hcontra ▸ List.getElem?_mem hk)
        have harith : n + 1 + k0 = n + (k0 + 1) := by omega
        rw [ih2 k0 idx hk, getElem?_modifyAt, if_neg hne]
        simp only [harith]

/-- `bringSelectedToFront` with distinct selection indices: the `k`-th
selected reference gets `maxZ + k + 1`; other positions are untouched;
selection, groups unchanged. -/
theorem bringSelectedToFront_spec (e : Engine) (hnd : e.selectedPieces.Nodup) :
    (bringSelectedToFront e).selectedPieces = e.selectedPieces ∧
    (bringSelectedToFront e).groups = e.groups ∧
    (∀ i : ℕ, i ∉ e.selectedPieces →
      (bringSelectedToFront e).pieces[i]? = e.pieces[i]?) ∧
    (∀ k idx : ℕ, e.selectedPieces[k]? = some idx →
      (bringSelectedToFront e).pieces[idx]?
        = (e.pieces[idx]?).map (fun p => { p with zIndex := maxZof e.pieces + (k : ℕ) + 1 })) := by
  obtain ⟨h1, h2⟩ := assignZ_spec (maxZof e.pieces) e.selectedPieces 0 e.pieces hnd
  refine ⟨rfl, rfl, ?_, ?_⟩
  · intro i hi
    exact h1 i hi
  · intro k idx hk
    have := h2 k idx hk
    simpa using this

/-- **C9, amended.**  As stated the claim is false (see the counterexample):
the new z-indexes follow the group member set's insertion order, not the
previous relative z order.  What `activatePieceDrag` does guarantee, for a
piece whose group is found (unique ids, member set without duplicates):
the selection becomes exactly the group's members (first-match references,
in member order); every piece of the group is selected; every selected
piece's new z-index is strictly above every non-selected piece's; and the
new z-indexes increase strictly along the member list. -/
theorem activatePieceDrag_group_zorder_amended
    (e : Engine) (pi : ℕ) (piece : Piece) (mem : List ℕ)
    (hpi : e.pieces[pi]? = some piece)
    (hnd : (e.pieces.map Piece.id).Nodup)
    (hmemnd : mem.Nodup)
    (hg : alookup piece.groupId e.groups = some mem) :
    (activatePieceDrag e pi).selectedPieces
        = mem.filterMap (fun pid => findIdxBy (fun p => p.id == pid) e.pieces) ∧
    (∀ (i : ℕ) (q : Piece), e.pieces[i]? = some q → q.id ∈ mem →
      i ∈ (activatePieceDrag e pi).selectedPieces ∧
      ∃ q2 : Piece, (activatePieceDrag e pi).pieces[i]? = some q2 ∧ q2.isSelected = true) ∧
    (∀ j ∈ (activatePieceDrag e pi).selectedPieces,
      ∀ i : ℕ, i ∉ (activatePieceDrag e pi).selectedPieces →
      ∀ qi qj : Piece, (activatePieceDrag e pi).pieces[i]? = some qi →
        (activatePieceDrag e pi).pieces[j]? = some qj → qi.zIndex < qj.zIndex) ∧
    (activatePieceDrag e pi).selectedPieces.Pairwise (fun j j' =>
      ∀ qj qj' : Piece, (activatePieceDrag e pi).pieces[j]? = some qj →
        (activatePieceDrag e pi).pieces[j']? = some qj' → qj.zIndex < qj'.zIndex) := by
  have hgroups1 : (clearSelection e).groups = e.groups := rfl
  have hact : activatePieceDrag e pi
      = bringSelectedToFront (mem.foldl dragSelectStep (clearSelection e)) := by
    unfold activatePieceDrag
    rw [hpi]
    simp only [hgroups1, hg]
  have hid1 : (clearSelection e).pieces.map Piece.id = e.pieces.map Piece.id :=
    map_field_foldl_modifyAt Piece.id (fun _ p => { p with isSelected := false })
      (fun i => i) (fun _ _ => rfl) e.selectedPieces e.pieces
  have hfind1 : ∀ pid : ℕ, findIdxBy (fun p => p.id == pid) (clearSelection e).pieces
      = findIdxBy (fun p => p.id == pid) e.pieces := by
    intro pid
    rw [findIdxBy_id_eq, findIdxBy_id_eq, hid1]
  obtain ⟨s1, _s2, _s3, _s4, _s5, s6⟩ :=
    dragSelectStep_foldl_spec mem (clearSelection e)
  have hsel2 : (mem.foldl dragSelectStep (clearSelection e)).selectedPieces
      = mem.filterMap (fun pid => findIdxBy (fun p => p.id == pid) e.pieces) := by
    rw [s1]
    have : (clearSelection e).selectedPieces = [] := rfl
    rw [this, List.nil_append]
    apply List.filterMap_congr
    intro pid _
    rw [hfind1]
  have hmemIdxNodup :
      (mem.filterMap (fun pid => findIdxBy (fun p => p.id == pid) e.pieces)).Nodup := by
    apply List.Nodup.filterMap _ hmemnd
    intro a a' b hb hb'
    simp only [Option.mem_def] at hb hb'
    obtain ⟨pa, hpa, hqa⟩ := findIdxBy_some hb
    obtain ⟨pa', hpa', hqa'⟩ := findIdxBy_some hb'
    rw [hpa] at hpa'
    cases hpa'
    have h1 : pa.id = a := by simpa using hqa
    have h2 : pa.id = a' := by simpa using hqa'
    exact h1 ▸ h2
  have hnd2sel : (mem.foldl dragSelectStep (clearSelection e)).selectedPieces.Nodup := by
    rw [hsel2]; exact hmemIdxNodup
  obtain ⟨b1, _b2, b3, b4⟩ :=
    bringSelectedToFront_spec (mem.foldl dragSelectStep (clearSelection e)) hnd2sel
  have hselFinal : (activatePieceDrag e pi).selectedPieces
      = mem.filterMap (fun pid => findIdxBy (fun p => p.id == pid) e.pieces) := by
    rw [hact, b1, hsel2]
  refine ⟨hselFinal, ?_, ?_, ?_⟩
  · -- every group member is selected
    intro i q hq hqmem
    have hfound : findIdxBy (fun x => x.id == q.id) e.pieces = some i :=
      findIdxBy_of_nodup hnd hq
    have hiMem : i ∈ (activatePieceDrag e pi).selectedPieces := by
      rw [hselFinal]
      exact List.mem_filterMap.mpr ⟨q.id, hqmem, by rw [hfound]⟩
    refine ⟨hiMem, ?_⟩
    obtain ⟨p2, hp2, hp2sel⟩ := s6 q.id hqmem i (by rw [hfind1, hfound])
    have hiMem2 : i ∈ (mem.foldl dragSelectStep (clearSelection e)).selectedPieces := by
      rw [hsel2]
      exact List.mem_filterMap.mpr ⟨q.id, hqmem, by rw [hfound]⟩
    obtain ⟨k, hklt, hk⟩ := List.getElem_of_mem hiMem2
    have hk? : (mem.foldl dragSelectStep (clearSelection e)).selectedPieces[k]? = some i := by
      rw [List.getElem?_eq_getElem hklt, hk]
    have := b4 k i hk?
    rw [hact, this, hp2]
    exact ⟨_, rfl, hp2sel⟩
  · -- selected pieces sit strictly above all others
    intro j hj i hi qi qj hqi hqj
    rw [hact] at hqi hqj hj hi
    rw [b1] at hj hi
    obtain ⟨k, hklt, hk⟩ := List.getElem_of_mem hj
    have hk? : (mem.foldl dragSelectStep (clearSelection e)).selectedPieces[k]? = some j := by
      rw [List.getElem?_eq_getElem hklt, hk]
    have hjval := b4 k j hk?
    rw [hjval] at hqj
    have hival := b3 i hi
    rw [hival] at hqi
    obtain ⟨pj, hpj, hpjz⟩ : ∃ pj,
        (mem.foldl dragSelectStep (clearSelection e)).pieces[j]? = some pj ∧
        qj.zIndex = maxZof (mem.foldl dragSelectStep (clearSelection e)).pieces + (k : ℤ) + 1 := by
      cases hcase : (mem.foldl dragSelectStep (clearSelection e)).pieces[j]? with
      | none => rw [hcase] at hqj; cases hqj
      | some pj =>
        rw [hcase] at hqj
        injection hqj with hqj
        exact ⟨pj, rfl, by rw [← hqj]⟩
    have hqiMem : qi ∈ (mem.foldl dragSelectStep (clearSelection e)).pieces :=
      List.getElem?_mem hqi
    have hbound := zIndex_le_maxZof hqiMem
    rw [hpjz]
    omega
  · -- z increases along the member insertion order
    have hselEq : (activatePieceDrag e pi).selectedPieces
        = (mem.foldl dragSelectStep (clearSelection e)).selectedPieces := by
      rw [hact, b1]
    rw [List.pairwise_iff_getElem]
    intro k k' hklt hklt' hkk qj qj' hqj hqj'
    have hk? : (mem.foldl dragSelectStep (clearSelection e)).selectedPieces[k]?
        = some ((activatePieceDrag e pi).selectedPieces[k]) := by
      rw [← hselEq]
      exact List.getElem?_eq_getElem hklt
    have hk'? : (mem.foldl dragSelectStep (clearSelection e)).selectedPieces[k']?
        = some ((activatePieceDrag e pi).selectedPieces[k']) := by
      rw [← hselEq]
      exact List.getElem?_eq_getElem hklt'
    have hjval := b4 k _ hk?
    have hjval' := b4 k' _ hk'?
    rw [← hact] at hjval hjval'
    rw [hjval] at hqj
    rw [hjval'] at hqj'
    obtain ⟨pj, hpj⟩ : ∃ pj : Piece, qj.zIndex
        = maxZof (mem.foldl dragSelectStep (clearSelection e)).pieces + (k : ℤ) + 1 := by
      cases hcase : (mem.foldl dragSelectStep (clearSelection e)).pieces[
          (activatePieceDrag e pi).selectedPieces[k]]? with
      | none => rw [hcase] at hqj; cases hqj
      | some pj =>
        rw [hcase] at hqj
        injection hqj with hqj
        exact ⟨pj, by rw [← hqj]⟩
    obtain ⟨pj', hpj'⟩ : ∃ pj' : Piece, qj'.zIndex
        = maxZof (mem.foldl dragSelectStep (clearSelection e)).pieces + (k' : ℤ) + 1 := by
      cases hcase : (mem.foldl dragSelectStep (clearSelection e)).pieces[
          (activatePieceDrag e pi).selectedPieces[k']]? with
      | none => rw [hcase] at hqj'; cases hqj'
      | some pj' =>
        rw [hcase] at hqj'
        injection hqj' with hqj'
        exact ⟨pj', by rw [← hqj']⟩
    rw [hpj, hpj']
    omega

theorem alookup_mem : ∀ {gs : List (ℕ × List ℕ)} {k : ℕ} {m : List ℕ},
    alookup k gs = some m → (k, m) ∈ gs := by
  intro gs
  induction gs with
  | nil => intro k m h; cases h
  | cons g gs ih =>
    intro k m h
    rw [alookup] at h
    by_cases hk : g.1 = k
    · rw [if_pos hk] at h
      injection h with h
      subst hk
      subst h
      exact List.mem_cons_self g gs
    · rw [if_neg hk] at h
      exact List.mem_cons_of_mem g (ih h)

theorem mem_alookup_nodup : ∀ {gs : List (ℕ × List ℕ)} {k : ℕ} {m : List ℕ},
    keysND gs → (k, m) ∈ gs → alookup k gs = some m := by
  intro gs
  induction gs with
  | nil => intro k m _ h; cases h
  | cons g gs ih =>
    intro k m hnd h
    rw [keysND, List.map_cons, List.nodup_cons] at hnd
    rcases List.mem_cons.mp h with h1 | h1
    · subst h1
      rw [alookup, if_pos rfl]
    · have hk : g.1 ≠ k := by
        intro hcontra
        exact hnd.1 (hcontra ▸ List.mem_map_of_mem Prod.fst h1)
      rw [alookup, if_neg hk]
      exact ih hnd.2 h1

theorem mem_foldl_setAdd : ∀ (B A : List ℕ) (x : ℕ),
    x ∈ B.foldl setAdd A ↔ x ∈ A ∨ x ∈ B := by
  intro B
  induction B with
  | nil => intro A x; simp
  | cons b bs ih =>
    intro A x
    rw [List.foldl_cons, ih]
    unfold setAdd
    by_cases hb : b ∈ A
    · rw [if_pos hb]
      constructor
      · rintro (h | h)
        · exact Or.inl h
        · exact Or.inr (List.mem_cons_of_mem b h)
      · rintro (h | h)
        · exact Or.inl h
        · rcases List.mem_cons.mp h with rfl | h2
          · exact Or.inl hb
          · exact Or.inr h2
    · rw [if_neg hb]
      simp only [List.mem_append, List.mem_singleton, List.mem_cons]
      tauto

/-- Lookup characterization of the group-map rewrite done by
`mergeGroups`: entry `b` disappears, entry `a` absorbs `B`, the rest is
untouched. -/
theorem alookup_merge (a b : ℕ) (B : List ℕ) (hab : a ≠ b) :
    ∀ (gs : List (ℕ × List ℕ)) (k : ℕ),
      alookup k (gs.filterMap (fun g =>
          if g.1 = b then none
          else if g.1 = a then some (a, B.foldl setAdd g.2)
          else some g))
        = if k = b then none
          else if k = a then (alookup a gs).map (fun m => B.foldl setAdd m)
          else alookup k gs := by
  intro gs
  induction gs with
  | nil =>
    intro k
    by_cases h1 : k = b
    · simp [alookup, h1]
    · by_cases h2 : k = a <;> simp [alookup, h1, h2]
  | cons g gs ih =>
    intro k
    rw [List.filterMap_cons]
    by_cases hgb : g.1 = b
    · rw [if_pos hgb, ih k]
      by_cases h1 : k = b
      · rw [if_pos h1, if_pos h1]
      · have hgk : g.1 ≠ k := fun h => h1 (by rw [← h, hgb])
        rw [if_neg h1, if_neg h1]
        by_cases h2 : k = a
        · rw [if_pos h2, if_pos h2]
          subst h2
          rw [alookup, if_neg hgk]
        · rw [if_neg h2, if_neg h2, alookup, if_neg hgk]
    · rw [if_neg hgb]
      by_cases hga : g.1 = a
      · rw [if_pos hga]
        by_cases h2 : k = a
        · subst h2
          have h1 : k ≠ b := by rw [← hga]; exact hgb
          rw [alookup, if_pos rfl, if_neg h1, if_pos rfl, alookup, if_pos hga]
          rfl
        · rw [alookup, if_neg (show (a : ℕ) ≠ k from fun h => h2 h.symm), ih k]
          by_cases h1 : k = b
          · rw [if_pos h1, if_pos h1]
          · rw [if_neg h1, if_neg h1, if_neg h2, if_neg h2, alookup,
              if_neg (fun h => h2 (by rw [← h, hga]))]
      · rw [if_neg hga]
        by_cases hgk : g.1 = k
        · subst hgk
          have h1 : g.1 ≠ b := hgb
          have h2 : g.1 ≠ a := hga
          rw [alookup, if_pos rfl, if_neg (fun h => h1 h), if_neg (fun h => h2 h), alookup,
            if_pos rfl]
        · rw [alookup, if_neg hgk, ih k]
          by_cases h1 : k = b
          · rw [if_pos h1, if_pos h1]
          · rw [if_neg h1, if_neg h1]
            by_cases h2 : k = a
            · subst h2
              rw [if_pos rfl, if_pos rfl, alookup, if_neg hgk]
            · rw [if_neg h2, if_neg h2, alookup, if_neg hgk]

/-- Keys of the merged group map form a sublist of the original keys. -/
theorem merge_keys_sublist (a b : ℕ) (B : List ℕ) :
    ∀ gs : List (ℕ × List ℕ),
      ((gs.filterMap (fun g =>
          if g.1 = b then none
          else if g.1 = a then some (a, B.foldl setAdd g.2)
          else some g)).map Prod.fst).Sublist (gs.map Prod.fst) := by
  intro gs
  induction gs with
  | nil => exact List.Sublist.refl []
  | cons g gs ih =>
    rw [List.filterMap_cons]
    by_cases hgb : g.1 = b
    · rw [if_pos hgb, List.map_cons]
      exact ih.cons g.1
    · rw [if_neg hgb]
      by_cases hga : g.1 = a
      · rw [if_pos hga, List.map_cons, List.map_cons, hga]
        exact ih.cons₂ a
      · rw [if_neg hga, List.map_cons, List.map_cons]
        exact ih.cons₂ g.1

/-- Id-preserving pointwise updates keep the id sequence. -/
theorem map_id_of_pointwise (g : Piece → Piece) (h : ∀ q, (g q).id = q.id)
    (l : List Piece) : (l.map g).map Piece.id = l.map Piece.id := by
  rw [List.map_map]
  apply List.map_congr_left
  intro q _
  exact h q

/-- Distinct positions carry distinct ids under a `Nodup` id sequence. -/
theorem nodup_ids_getElem_ne {ps : List Piece} (hnd : (ps.map Piece.id).Nodup)
    {i j : ℕ} {p q : Piece} (hij : i ≠ j) (hp : ps[i]? = some p) (hq : ps[j]? = some q) :
    p.id ≠ q.id := by
  have hpi : (ps.map Piece.id)[i]? = some p.id := by rw [List.getElem?_map, hp]; rfl
  have hqj : (ps.map Piece.id)[j]? = some q.id := by rw [List.getElem?_map, hq]; rfl
  obtain ⟨hilt, hpe⟩ := List.getElem?_eq_some_iff.mp hpi
  obtain ⟨hjlt, hqe⟩ := List.getElem?_eq_some_iff.mp hqj
  have hpw := List.pairwise_iff_getElem.mp hnd
  rcases Nat.lt_or_ge i j with hlt | hge
  · have := hpw i j hilt hjlt hlt
    rw [hpe, hqe] at this
    exact this
  · have hgt : j < i := by omega
    have := hpw j i hjlt hilt hgt
    rw [hpe, hqe] at this
    exact fun hc => this hc.symm

/-- `mergeGroups` preserves the grouping invariant. -/
theorem groupInv_mergeGroups (e : Engine) (a b : ℕ) (h : GroupInv e) :
    GroupInv (mergeGroups e a b) := by
  obtain ⟨hkeys, hdisj, hcov, hids⟩ := h
  unfold mergeGroups
  by_cases hab : a = b
  · rw [if_pos hab]; exact ⟨hkeys, hdisj, hcov, hids⟩
  · rw [if_neg hab]
    cases ha : alookup a e.groups with
    | none => simp only [ha]; exact ⟨hkeys, hdisj, hcov, hids⟩
    | some A =>
      cases hb : alookup b e.groups with
      | none => simp only [ha, hb]; exact ⟨hkeys, hdisj, hcov, hids⟩
      | some B =>
        simp only [ha, hb]
        have hchar := alookup_merge a b B hab e.groups
        have hpieces : B.foldl
            (fun ps pid => updateFirstBy (fun p => p.id == pid)
              (fun p => { p with groupId := a }) ps) e.pieces
            = e.pieces.map (fun q => if q.id ∈ B then { q with groupId := a } else q) :=
          @foldl_updateFirstBy_id_eq_map (fun p => { p with groupId := a })
            (fun _ => rfl) (fun _ => rfl) B e.pieces hids
        refine ⟨?_, ?_, ?_, ?_⟩
        · exact (merge_keys_sublist a b B e.groups).nodup hkeys
        · intro k1 k2 m1 m2 hne h1 h2 x hx1
          rw [hchar k1] at h1
          rw [hchar k2] at h2
          by_cases h1b : k1 = b
          · rw [if_pos h1b] at h1; cases h1
          · rw [if_neg h1b] at h1
            by_cases h2b : k2 = b
            · rw [if_pos h2b] at h2; cases h2
            · rw [if_neg h2b] at h2
              by_cases h1a : k1 = a
              · rw [if_pos h1a, ha] at h1
                injection h1 with h1
                subst h1
                by_cases h2a : k2 = a
                · exact absurd (h1a.trans h2a.symm) hne
                · rw [if_neg h2a] at h2
                  rcases (mem_foldl_setAdd B A x).mp hx1 with hxA | hxB
                  · exact hdisj a k2 A m2 (h1a ▸ hne) ha h2 x hxA
                  · exact hdisj b k2 B m2 (fun hc => h2b hc.symm) hb h2 x hxB
              · rw [if_neg h1a] at h1
                by_cases h2a : k2 = a
                · rw [if_pos h2a, ha] at h2
                  injection h2 with h2
                  subst h2
                  intro hx2
                  rcases (mem_foldl_setAdd B A x).mp hx2 with hxA | hxB
                  · exact hdisj k1 a m1 A (h2a ▸ hne) h1 ha x hx1 hxA
                  · exact hdisj k1 b m1 B (fun hc => h1b hc) h1 hb x hx1 hxB
                · rw [if_neg h2a] at h2
                  exact hdisj k1 k2 m1 m2 hne h1 h2 x hx1
        · intro p' hp'
          rw [hpieces] at hp'
          obtain ⟨q, hq, rfl⟩ := List.mem_map.mp hp'
          by_cases hqB : q.id ∈ B
          · rw [if_pos hqB]
            refine ⟨B.foldl setAdd A, ?_, ?_⟩
            · show alookup a _ = _
              rw [hchar a, if_neg hab, if_pos rfl, ha]
              rfl
            · exact (mem_foldl_setAdd B A q.id).mpr (Or.inr hqB)
          · rw [if_neg hqB]
            obtain ⟨m, hm, hqm⟩ := hcov q hq
            by_cases hqgb : q.groupId = b
            · rw [hqgb, hb] at hm
              injection hm with hm
              subst hm
              exact absurd hqm hqB
            · by_cases hqga : q.groupId = a
              · refine ⟨B.foldl setAdd A, ?_, ?_⟩
                · rw [hqga, hchar a, if_neg hab, if_pos rfl, ha]
                  rfl
                · rw [hqga, ha] at hm
                  injection hm with hm
                  subst hm
                  exact (mem_foldl_setAdd B A q.id).mpr (Or.inl hqm)
              · refine ⟨m, ?_, hqm⟩
                rw [hchar q.groupId, if_neg hqgb, if_neg hqga]
                exact hm
        · rw [hpieces,
            map_id_of_pointwise _ (fun q => by by_cases hq : q.id ∈ B <;> simp [hq]) e.pieces]
          exact hids

theorem initGroups_pieces_ids : ∀ (ps : List Piece) (g0 : ℕ),
    (initGroups g0 ps).1.map Piece.id = ps.map Piece.id := by
  intro ps
  induction ps with
  | nil => intro g0; rfl
  | cons p ps ih =>
    intro g0
    simp [initGroups, ih (g0 + 1)]

theorem initGroups_content : ∀ (ps : List Piece) (g0 k : ℕ) (m : List ℕ),
    alookup k (initGroups g0 ps).2.1 = some m →
    ∃ (j : ℕ) (p : Piece), ps[j]? = some p ∧ m = [p.id] ∧ k = g0 + j := by
  intro ps
  induction ps with
  | nil => intro g0 k m h; cases h
  | cons p ps ih =>
    intro g0 k m h
    rw [show (initGroups g0 (p :: ps)).2.1
        = (g0, [p.id]) :: (initGroups (g0 + 1) ps).2.1 from rfl] at h
    rw [alookup] at h
    by_cases hk : g0 = k
    · rw [if_pos hk] at h
      injection h with h
      exact ⟨0, p, by simp, h.symm, by omega⟩
    · rw [if_neg hk] at h
      obtain ⟨j, q, hq, hm, hkj⟩ := ih (g0 + 1) k m h
      exact ⟨j + 1, q, by simpa using hq, hm, by omega⟩

theorem initGroups_keys_nodup : ∀ (ps : List Piece) (g0 : ℕ),
    ((initGroups g0 ps).2.1.map Prod.fst).Nodup := by
  intro ps
  induction ps with
  | nil => intro g0; exact List.nodup_nil
  | cons p ps ih =>
    intro g0
    rw [show (initGroups g0 (p :: ps)).2.1
        = (g0, [p.id]) :: (initGroups (g0 + 1) ps).2.1 from rfl]
    rw [List.map_cons, List.nodup_cons]
    refine ⟨?_, ih (g0 + 1)⟩
    intro hmem
    obtain ⟨g, hg, hgfst⟩ := List.mem_map.mp hmem
    obtain ⟨k, m⟩ := g
    have : alookup k (initGroups (g0 + 1) ps).2.1 = some m :=
      mem_alookup_nodup (ih (g0 + 1)) hg
    obtain ⟨j, q, _, _, hkj⟩ := initGroups_content ps (g0 + 1) k m this
    simp only at hgfst
    omega

theorem initGroups_covers : ∀ (ps : List Piece) (g0 : ℕ),
    ∀ p' ∈ (initGroups g0 ps).1,
      ∃ m, alookup p'.groupId (initGroups g0 ps).2.1 = some m ∧ p'.id ∈ m := by
  intro ps
  induction ps with
  | nil => intro g0 p' h; cases h
  | cons p ps ih =>
    intro g0 p' hp'
    rw [show (initGroups g0 (p :: ps)).1
        = { p with groupId := g0 } :: (initGroups (g0 + 1) ps).1 from rfl] at hp'
    rw [show (initGroups g0 (p :: ps)).2.1
        = (g0, [p.id]) :: (initGroups (g0 + 1) ps).2.1 from rfl]
    rcases List.mem_cons.mp hp' with rfl | hp'
    · exact ⟨[p.id], by rw [alookup, if_pos rfl], by simp⟩
    · obtain ⟨m, hm, hpm⟩ := ih (g0 + 1) p' hp'
      refine ⟨m, ?_, hpm⟩
      have hne : g0 ≠ p'.groupId := by
        obtain ⟨j, q, _, _, hkj⟩ := initGroups_content ps (g0 + 1) p'.groupId m hm
        omega
      rw [alookup, if_neg hne]
      exact hm

/-- `setPieces` establishes the grouping invariant (for pieces with unique
ids, as the cutter produces). -/
theorem groupInv_setPieces (e0 : Engine) (ps : List Piece)
    (hnd : (ps.map Piece.id).Nodup) : GroupInv (setPieces e0 ps) := by
  have hpieces : (setPieces e0 ps).pieces = (initGroups 0 ps).1 := rfl
  have hgroups : (setPieces e0 ps).groups = (initGroups 0 ps).2.1 := rfl
  refine ⟨?_, ?_, ?_, ?_⟩
  · rw [keysND, hgroups]
    exact initGroups_keys_nodup ps 0
  · rw [hgroups]
    intro k1 k2 m1 m2 hne h1 h2 x hx1 hx2
    obtain ⟨j1, p1, hp1, hm1, hk1⟩ := initGroups_content ps 0 k1 m1 h1
    obtain ⟨j2, p2, hp2, hm2, hk2⟩ := initGroups_content ps 0 k2 m2 h2
    subst hm1
    subst hm2
    have hj : j1 ≠ j2 := by omega
    have := nodup_ids_getElem_ne hnd hj hp1 hp2
    rw [List.mem_singleton] at hx1 hx2
    exact this (hx1 ▸ hx2 ▸ rfl)
  · intro p hp
    rw [hpieces] at hp
    rw [hgroups]
    exact initGroups_covers ps 0 p hp
  · rw [hpieces, initGroups_pieces_ids]
    exact hnd

/-- **C2.**  After `setPieces` and any sequence of merges: every piece id
lies in exactly one group's member set and `piece.groupId` names that group;
a merge of two distinct existing groups absorbs `B`'s members into `A` and
deletes entry `B`; and a merge never splits co-members apart. -/
theorem setPieces_mergeGroups_partition
    (e0 : Engine) (ps : List Piece) (hnd : (ps.map Piece.id).Nodup)
    (ops : List (ℕ × ℕ)) :
    (∀ p ∈ (ops.foldl (fun acc op => mergeGroups acc op.1 op.2) (setPieces e0 ps)).pieces,
      (∃ m, alookup p.groupId
          (ops.foldl (fun acc op => mergeGroups acc op.1 op.2) (setPieces e0 ps)).groups
          = some m ∧ p.id ∈ m) ∧
      (∀ g1 ∈ (ops.foldl (fun acc op => mergeGroups acc op.1 op.2) (setPieces e0 ps)).groups,
        ∀ g2 ∈ (ops.foldl (fun acc op => mergeGroups acc op.1 op.2) (setPieces e0 ps)).groups,
        p.id ∈ g1.2 → p.id ∈ g2.2 → g1 = g2)) ∧
    (∀ (e : Engine) (a b : ℕ) (A B : List ℕ), a ≠ b →
      alookup a e.groups = some A → alookup b e.groups = some B →
      alookup b (mergeGroups e a b).groups = none ∧
      alookup a (mergeGroups e a b).groups = some (B.foldl setAdd A)) ∧
    (∀ (e : Engine) (a b : ℕ), keysND e.groups →
      ∀ g ∈ e.groups, ∃ g2 ∈ (mergeGroups e a b).groups, ∀ x ∈ g.2, x ∈ g2.2) := by
  have hInv : GroupInv (ops.foldl (fun acc op => mergeGroups acc op.1 op.2) (setPieces e0 ps)) := by
    have : ∀ (os : List (ℕ × ℕ)) (e : Engine), GroupInv e →
        GroupInv (os.foldl (fun acc op => mergeGroups acc op.1 op.2) e) := by
      intro os
      induction os with
      | nil => exact fun e h => h
      | cons o os ih =>
        intro e h
        rw [List.foldl_cons]
        exact ih _ (groupInv_mergeGroups e o.1 o.2 h)
    exact this ops _ (groupInv_setPieces e0 ps hnd)
  obtain ⟨hkeys, hdisj, hcov, _⟩ := hInv
  refine ⟨?_, ?_, ?_⟩
  · intro p hp
    obtain ⟨m, hm, hpm⟩ := hcov p hp
    refine ⟨⟨m, hm, hpm⟩, ?_⟩
    intro g1 hg1 g2 hg2 hx1 hx2
    have hl1 : alookup g1.1 _ = some g1.2 := mem_alookup_nodup hkeys hg1
    have hl2 : alookup g2.1 _ = some g2.2 := mem_alookup_nodup hkeys hg2
    by_cases hk : g1.1 = g2.1
    · have : some g1.2 = some g2.2 := by rw [← hl1, hk, hl2]
      injection this with this
      calc g1 = (g1.1, g1.2) := rfl
        _ = (g2.1, g2.2) := by rw [hk, this]
        _ = g2 := rfl
    · exact absurd hx2 (hdisj g1.1 g2.1 g1.2 g2.2 hk hl1 hl2 p.id hx1)
  · intro e a b A B hab ha hb
    unfold mergeGroups
    rw [if_neg hab]
    simp only [ha, hb]
    have hchar := alookup_merge a b B hab e.groups
    constructor
    · rw [hchar b, if_pos rfl]
    · rw [hchar a, if_neg hab, if_pos rfl, ha]
      rfl
  · intro e a b hkeysE g hg
    unfold mergeGroups
    by_cases hab : a = b
    · rw [if_pos hab]
      exact ⟨g, hg, fun x hx => hx⟩
    · rw [if_neg hab]
      cases ha : alookup a e.groups with
      | none => simp only [ha]; exact ⟨g, hg, fun x hx => hx⟩
      | some A =>
        cases hb : alookup b e.groups with
        | none => simp only [ha, hb]; exact ⟨g, hg, fun x hx => hx⟩
        | some B =>
          simp only [ha, hb]
          by_cases hgb : g.1 = b
          · have hgB : g.2 = B := by
              have hh := mem_alookup_nodup hkeysE hg
              rw [hgb, hb] at hh
              injection hh with hh
              exact hh.symm
            refine ⟨(a, B.foldl setAdd A), ?_, ?_⟩
            · apply List.mem_filterMap.mpr
              refine ⟨(a, A), alookup_mem ha, ?_⟩
              show (if a = b then none
                  else if a = a then some (a, B.foldl setAdd A) else some (a, A))
                = some (a, B.foldl setAdd A)
              rw [if_neg hab, if_pos rfl]
            · intro x hx
              exact (mem_foldl_setAdd B A x).mpr (Or.inr (hgB ▸ hx))
          · by_cases hga : g.1 = a
            · refine ⟨(a, B.foldl setAdd g.2), ?_, ?_⟩
              · apply List.mem_filterMap.mpr
                refine ⟨g, hg, ?_⟩
                rw [if_neg hgb, if_pos hga]
              · intro x hx
                exact (mem_foldl_setAdd B g.2 x).mpr (Or.inl hx)
            · refine ⟨g, ?_, fun x hx => hx⟩
              apply List.mem_filterMap.mpr
              refine ⟨g, hg, ?_⟩
              rw [if_neg hgb, if_neg hga]

/-- Witness for C2: two singleton groups merged once; every piece still lies
in exactly one group with a matching `groupId`. -/
theorem setPieces_mergeGroups_partition_witness :
    ∃ m, alookup ({ pieceDflt with id := 0, zIndex := 5 } : Piece).groupId
        (([((0 : ℕ), (1 : ℕ))]).foldl (fun acc op => mergeGroups acc op.1 op.2)
          (setPieces engDflt e9cex.pieces)).groups = some m ∧
      ({ pieceDflt with id := 0, zIndex := 5 } : Piece).id ∈ m :=
  ((setPieces_mergeGroups_partition engDflt e9cex.pieces (by decide) [(0, 1)]).1
    { pieceDflt with id := 0, zIndex := 5 } (by with_unfolding_all decide)).1

/-- Witness for C9 (amended): on a two-piece group, activating a drag on
piece index 0 selects both group members, in member-list order. -/
theorem activatePieceDrag_group_zorder_amended_witness :
    (activatePieceDrag e9cex 0).selectedPieces
      = ([0, 1] : List ℕ).filterMap
          (fun pid => findIdxBy (fun p => p.id == pid) e9cex.pieces) :=
  (activatePieceDrag_group_zorder_amended e9cex 0
    { pieceDflt with id := 0, zIndex := 5 } [0, 1] rfl (by decide) (by decide) rfl).1

theorem detp_spure {α : Type} (a : α) : detp (spure a) :=
  fun _ _ h => ⟨rfl, h⟩

theorem detp_sbind {α β : Type} (f : SR α) (g : α → SR β)
    (hf : detp f) (hg : ∀ a, detp (g a)) : detp (sbind f g) := by
  intro st1 st2 h
  obtain ⟨hv, hs⟩ := hf st1 st2 h
  have h2 := hg (f st1).1 (f st1).2 (f st2).2 hs
  show (g (f st1).1 (f st1).2).1 = (g (f st2).1 (f st2).2).1 ∧
    rngAgree (g (f st1).1 (f st1).2).2 (g (f st2).1 (f st2).2).2
  rw [← hv]
  exact h2

theorem detp_smap {α β : Type} (h : α → β) (f : SR α) (hf : detp f) :
    detp (smap h f) :=
  detp_sbind f (fun a => spure (h a)) hf (fun a => detp_spure (h a))

theorem detp_nextRand : detp nextRand := by
  intro st1 st2 h
  obtain ⟨heq, hsome⟩ := h
  cases h1 : st1.rng with
  | none => rw [h1] at hsome; cases hsome
  | some s =>
    have h2 : st2.rng = some s := heq ▸ h1
    unfold nextRand
    rw [h1, h2]
    exact ⟨rfl, rfl, rfl⟩

theorem detp_smapM {α β : Type} (f : α → SR β) (hf : ∀ a, detp (f a)) :
    ∀ l : List α, detp (smapM f l) := by
  intro l
  induction l with
  | nil => exact detp_spure []
  | cons a as ih =>
    exact detp_sbind (f a) _ (hf a)
      (fun b => detp_smap (fun bs => b :: bs) (smapM f as) ih)

theorem detp_generateEdgeVariation : detp generateEdgeVariation := by
  unfold generateEdgeVariation
  exact detp_sbind _ _ detp_nextRand fun r1 =>
    detp_sbind _ _ detp_nextRand fun r2 =>
    detp_sbind _ _ detp_nextRand fun r3 =>
    detp_sbind _ _ detp_nextRand fun r4 => detp_spure _

theorem detp_genEdge : detp genEdge := by
  unfold genEdge
  exact detp_sbind _ _ detp_nextRand fun r =>
    detp_sbind _ _ detp_generateEdgeVariation fun v => detp_spure _

theorem detp_genHorizontalEdges (rows cols : ℕ) : detp (genHorizontalEdges rows cols) :=
  detp_smapM _ (fun _ => detp_smapM _ (fun _ => detp_genEdge) _) _

theorem detp_genVerticalEdges (rows cols : ℕ) : detp (genVerticalEdges rows cols) :=
  detp_smapM _ (fun _ => detp_smapM _ (fun _ => detp_genEdge) _) _

theorem detp_posCell (w h : ℚ) (rows cols row col : ℕ) :
    detp (posCell w h rows cols row col) := by
  unfold posCell
  exact detp_sbind _ _ detp_nextRand fun rx =>
    detp_sbind _ _ detp_nextRand fun ry => detp_spure _

theorem detp_genPositions (w h : ℚ) (rows cols : ℕ) : detp (genPositions w h rows cols) := by
  unfold genPositions
  exact detp_smap _ _ (detp_smapM _ (fun row => detp_smapM _ (fun col =>
    detp_posCell w h rows cols row col) _) _)

theorem detp_pickJ (n i : ℕ) : ∀ fuel : ℕ, detp (pickJ n i fuel) := by
  intro fuel
  induction fuel with
  | zero => exact detp_spure 0
  | succ fuel ih =>
    show detp (sbind nextRand _)
    refine detp_sbind _ _ detp_nextRand fun r => ?_
    by_cases hc : (⌊r * ((i : ℚ) + 1)⌋).toNat = i ∧ 2 < n
    · simp only [hc, if_pos]
      exact ih
    · simp only [hc, if_neg, if_false]
      exact detp_spure _

theorem detp_fyLoop (n : ℕ) : ∀ (i : ℕ) (l : List ScatterPos), detp (fyLoop n i l) := by
  intro i
  induction i with
  | zero => exact fun l => detp_spure l
  | succ i ih =>
    intro l
    exact detp_sbind _ _ (detp_pickJ n (i + 1) pickJFuel) fun j => ih _

theorem detp_generateShuffledPositions (w h : ℚ) (rows cols : ℕ) :
    detp (generateShuffledPositions w h rows cols) := by
  unfold generateShuffledPositions
  exact detp_sbind _ _ (detp_genPositions w h rows cols) fun ps =>
    detp_sbind _ _ (detp_fyLoop _ _ _) fun ps1 => detp_spure _

theorem detp_generatePieces (w h pw ph : ℚ) (rows cols : ℕ) :
    detp (generatePieces w h pw ph rows cols) := by
  unfold generatePieces
  exact detp_sbind _ _ (detp_genHorizontalEdges rows cols) fun hE =>
    detp_sbind _ _ (detp_genVerticalEdges rows cols) fun vE =>
    detp_sbind _ _ (detp_generateShuffledPositions w h rows cols) fun sc =>
    detp_spure _

/-- **C4.**  With a seed supplied, `cutImage` is deterministic: two runs on
the same image size, piece count and seed yield identical grids, edges and
scatter positions, whatever `Math.random` would have returned in either. -/
theorem cutImage_seed_deterministic (w h pieceCount s : ℕ) (ent1 ent2 : ℕ → ℚ) :
    cutImage w h pieceCount (some s) ent1 = cutImage w h pieceCount (some s) ent2 := by
  unfold cutImage
  have hagree : rngAgree
      { rng := some (s % m32), ent := ent1, entPos := 0 }
      { rng := some (s % m32), ent := ent2, entPos := 0 } :=
    ⟨rfl, rfl⟩
  simp only [CutResult.mk.injEq, true_and]
  exact (detp_generatePieces _ _ _ _ _ _ _ _ hagree).1

theorem shiftRight_lt_of_lt (n k b : ℕ) (h : n < b) : n >>> k < b :=
  Nat.lt_of_le_of_lt
    (by rw [Nat.shiftRight_eq_div_pow]; exact Nat.div_le_self _ _) h

theorem mval_lt (s0 : ℕ) : mval s0 < m32 := by
  have hm : (2 : ℕ) ^ 32 = m32 := by norm_num [m32]
  rw [← hm]
  have hpos : 0 < m32 := by norm_num [m32]
  unfold mval
  apply Nat.xor_lt_two_pow
  · apply Nat.xor_lt_two_pow
    · rw [hm]; exact Nat.mod_lt _ hpos
    · rw [hm]; exact Nat.mod_lt _ hpos
  · apply shiftRight_lt_of_lt
    apply Nat.xor_lt_two_pow
    · rw [hm]; exact Nat.mod_lt _ hpos
    · rw [hm]; exact Nat.mod_lt _ hpos

theorem mulberryStep_bounds (s0 : ℕ) :
    0 ≤ (mulberryStep s0).1 ∧ (mulberryStep s0).1 < 1 := by
  have hval : (mulberryStep s0).1 = (mval s0 : ℚ) / (m32 : ℚ) := rfl
  rw [hval]
  constructor
  · positivity
  · rw [div_lt_one (by norm_num [m32])]
    exact_mod_cast mval_lt s0

theorem sinv_spure {α : Type} {P : α → Prop} (a : α) (h : P a) : SInv (spure a) P :=
  fun _ hst => ⟨h, hst⟩

theorem sinv_sbind {α β : Type} {f : SR α} {g : α → SR β} {P : α → Prop} {Q : β → Prop}
    (hf : SInv f P) (hg : ∀ a, P a → SInv (g a) Q) : SInv (sbind f g) Q := by
  intro st hst
  obtain ⟨hp, hs⟩ := hf st hst
  exact hg (f st).1 hp (f st).2 hs

theorem sinv_smap {α β : Type} {f : SR α} {t : α → β} {P : α → Prop} {Q : β → Prop}
    (hf : SInv f P) (h : ∀ a, P a → Q (t a)) : SInv (smap t f) Q :=
  sinv_sbind hf (fun a ha => sinv_spure (t a) (h a ha))

theorem sinv_smapM {α β : Type} {f : α → SR β} {Q : β → Prop}
    (hf : ∀ a, SInv (f a) Q) :
    ∀ l : List α, SInv (smapM f l) (fun bs => ∀ b ∈ bs, Q b) := by
  intro l
  induction l with
  | nil => exact sinv_spure [] (fun b hb => absurd hb (List.not_mem_nil b))
  | cons a as ih =>
    refine sinv_sbind (hf a) (fun b hb => sinv_smap ih (fun bs hbs => ?_))
    intro c hc
    rcases List.mem_cons.mp hc with rfl | hc
    · exact hb
    · exact hbs c hc

theorem sinv_nextRand : SInv nextRand (fun r => 0 ≤ r ∧ r < 1) := by
  intro st hst
  unfold seeded at hst
  cases hrng : st.rng with
  | none => rw [hrng] at hst; cases hst
  | some s =>
    unfold nextRand
    rw [hrng]
    exact ⟨mulberryStep_bounds s, rfl⟩

theorem smapM_value_map {α β γ : Type} (f : α → SR β) (T : β → γ) (g : α → γ)
    (hf : ∀ a st, T ((f a) st).1 = g a) :
    ∀ (l : List α) (st : RState), (((smapM f l) st).1).map T = l.map g := by
  intro l
  induction l with
  | nil => intro st; rfl
  | cons a as ih =>
    intro st
    show (((f a st).1 :: ((smapM f as) (f a st).2).1).map T) = g a :: as.map g
    rw [List.map_cons, hf a st, ih (f a st).2]

theorem genPositions_tags (w h : ℚ) (rows cols : ℕ) (st : RState) :
    (((genPositions w h rows cols) st).1).map tagOf = cellGrid rows cols := by
  show (List.flatten ((smapM _ (List.range rows) st).1)).map tagOf = cellGrid rows cols
  rw [List.map_flatten]
  rw [smapM_value_map
    (fun row => smapM (fun col => posCell w h rows cols row col) (List.range cols))
    (List.map tagOf) (fun r => (List.range cols).map (fun c => (r, c)))
    (fun r st1 => smapM_value_map (fun col => posCell w h rows cols r col) tagOf
      (fun c => (r, c)) (fun c st2 => rfl) (List.range cols) st1)
    (List.range rows) st]
  rfl

theorem cellGrid_succ (rows cols : ℕ) :
    cellGrid (rows + 1) cols
      = cellGrid rows cols ++ (List.range cols).map (fun c => (rows, c)) := by
  rw [cellGrid, List.range_succ, List.flatMap_append, List.flatMap_cons, List.flatMap_nil,
    List.append_nil]
  rfl

theorem cellGrid_length (rows cols : ℕ) : (cellGrid rows cols).length = rows * cols := by
  induction rows with
  | zero => rw [Nat.zero_mul]; rfl
  | succ r ih =>
    rw [cellGrid_succ, List.length_append, ih, List.length_map, List.length_range]
    ring

theorem mem_cellGrid (rows cols : ℕ) (a : ℕ × ℕ) :
    a ∈ cellGrid rows cols ↔ a.1 < rows ∧ a.2 < cols := by
  rw [cellGrid, List.mem_flatMap]
  constructor
  · rintro ⟨r, hr, ha⟩
    obtain ⟨c, hc, hac⟩ := List.mem_map.mp ha
    rw [← hac]
    exact ⟨List.mem_range.mp hr, List.mem_range.mp hc⟩
  · rintro ⟨h1, h2⟩
    exact ⟨a.1, List.mem_range.mpr h1,
      List.mem_map.mpr ⟨a.2, List.mem_range.mpr h2, by simp⟩⟩

theorem cellGrid_nodup (rows cols : ℕ) : (cellGrid rows cols).Nodup := by
  induction rows with
  | zero => exact List.nodup_nil
  | succ r ih =>
    rw [cellGrid_succ]
    refine List.Nodup.append ih ?_ ?_
    · refine List.Nodup.map ?_ (List.nodup_range cols)
      intro c1 c2 hc
      injection hc
    · intro a ha1 ha2
      have h1 : a.1 < r := ((mem_cellGrid r cols a).mp ha1).1
      obtain ⟨c, _, hac⟩ := List.mem_map.mp ha2
      rw [← hac] at h1
      exact absurd h1 (by omega)

theorem swapL_getElem? {α : Type} (l : List α) (i j : ℕ) (a b : α)
    (ha : l[i]? = some a) (hb : l[j]? = some b) :
    ∀ k, (swapL l i j)[k]? = if j = k then some a else if i = k then some b else l[k]? := by
  intro k
  have hil : i < l.length := (List.getElem?_eq_some_iff.mp ha).1
  have hjl : j < l.length := (List.getElem?_eq_some_iff.mp hb).1
  unfold swapL
  rw [ha, hb]
  by_cases hjk : j = k
  · rw [if_pos hjk, ← hjk]
    rw [List.getElem?_set_self (by rw [List.length_set]; exact hjl)]
  · rw [if_neg hjk, List.getElem?_set, if_neg hjk]
    by_cases hik : i = k
    · rw [if_pos hik, List.getElem?_set, if_pos hik, if_pos hil]
    · rw [if_neg hik, List.getElem?_set, if_neg hik]

theorem cons_set_perm {α : Type} : ∀ (t : List α) (k : ℕ) (x b : α),
    t[k]? = some b → (b :: t.set k x).Perm (x :: t) := by
  intro t
  induction t with
  | nil => intro k x b hb; cases hb
  | cons y t ih =>
    intro k x b hb
    cases k with
    | zero =>
      have hb2 : y = b := by simpa using hb
      subst hb2
      show (y :: x :: t).Perm (x :: y :: t)
      exact List.Perm.swap x y t
    | succ m =>
      have hb2 : t[m]? = some b := by simpa using hb
      show (b :: y :: t.set m x).Perm (x :: y :: t)
      exact (List.Perm.swap y b _).trans
        (((ih m x b hb2).cons y).trans (List.Perm.swap x y t))

theorem set_set_perm {α : Type} : ∀ (l : List α) (i j : ℕ) (a b : α),
    l[i]? = some a → l[j]? = some b → ((l.set i b).set j a).Perm l := by
  intro l
  induction l with
  | nil => intro i j a b ha _; cases ha
  | cons x t ih =>
    intro i j a b ha hb
    cases i with
    | zero =>
      have ha2 : x = a := by simpa using ha
      subst ha2
      cases j with
      | zero =>
        show (x :: t).Perm (x :: t)
        exact List.Perm.refl _
      | succ m =>
        have hb2 : t[m]? = some b := by simpa using hb
        show (b :: t.set m x).Perm (x :: t)
        exact cons_set_perm t m x b hb2
    | succ k =>
      have ha2 : t[k]? = some a := by simpa using ha
      cases j with
      | zero =>
        have hb2 : x = b := by simpa using hb
        subst hb2
        show (a :: t.set k x).Perm (x :: t)
        exact cons_set_perm t k x a ha2
      | succ m =>
        have hb2 : t[m]? = some b := by simpa using hb
        show (x :: (t.set k b).set m a).Perm (x :: t)
        exact (ih k m a b ha2 hb2).cons x

theorem swapL_perm {α : Type} (l : List α) (i j : ℕ) : (swapL l i j).Perm l := by
  unfold swapL
  cases ha : l[i]? with
  | none => cases hb : l[j]? <;> exact List.Perm.refl l
  | some a =>
    cases hb : l[j]? with
    | none => exact List.Perm.refl l
    | some b => exact set_set_perm l i j a b ha hb

theorem fyLoop_perm (n : ℕ) : ∀ (i : ℕ) (l : List ScatterPos) (st : RState),
    (((fyLoop n i l) st).1).Perm l := by
  intro i
  induction i with
  | zero => intro l st; exact List.Perm.refl l
  | succ i ih =>
    intro l st
    show (((fyLoop n i (swapL l (i + 1) ((pickJ n (i + 1) pickJFuel st).1)))
        ((pickJ n (i + 1) pickJFuel st).2)).1).Perm l
    exact (ih _ _).trans (swapL_perm l (i + 1) _)

theorem postPassGo_perm (cols n : ℕ) : ∀ (rem i : ℕ) (l : List ScatterPos),
    (postPassGo cols n i rem l).Perm l := by
  intro rem
  induction rem with
  | zero => intro i l; exact List.Perm.refl l
  | succ rem ih =>
    intro i l
    show (postPassGo cols n (i + 1) rem (match l[i]? with
      | some p => if atOwnCell cols p i then swapL l i ((i + 1) % n) else l
      | none => l)).Perm l
    cases hli : l[i]? with
    | none => exact ih (i + 1) l
    | some p =>
      show (postPassGo cols n (i + 1) rem
        (if atOwnCell cols p i then swapL l i ((i + 1) % n) else l)).Perm l
      by_cases hown : atOwnCell cols p i = true
      · rw [if_pos hown]
        exact (ih (i + 1) _).trans (swapL_perm l i ((i + 1) % n))
      · rw [if_neg hown]
        exact ih (i + 1) l

theorem atOwnCell_true_iff (cols : ℕ) (p : ScatterPos) (i : ℕ) :
    atOwnCell cols p i = true ↔
      (p.originalRow = i / cols ∧ p.originalCol = i % cols) := by
  unfold atOwnCell
  rw [Bool.and_eq_true, beq_iff_eq, beq_iff_eq]

theorem atOwnCell_false_of_ne (cols : ℕ) (p : ScatterPos) (i : ℕ)
    (h : ¬(p.originalRow = i / cols ∧ p.originalCol = i % cols)) :
    atOwnCell cols p i = false := by
  cases hb : atOwnCell cols p i with
  | false => rfl
  | true => exact absurd ((atOwnCell_true_iff cols p i).mp hb) h

theorem cell_index_inj (cols : ℕ) {k1 k2 : ℕ}
    (hd : k1 / cols = k2 / cols) (hm : k1 % cols = k2 % cols) : k1 = k2 := by
  calc k1 = cols * (k1 / cols) + k1 % cols := (Nat.div_add_mod k1 cols).symm
    _ = cols * (k2 / cols) + k2 % cols := by rw [hd, hm]
    _ = k2 := Nat.div_add_mod k2 cols

theorem nodup_map_getElem_ne {α β : Type} (f : α → β) {l : List α}
    (hnd : (l.map f).Nodup) {i j : ℕ} (hij : i ≠ j) {p q : α}
    (hp : l[i]? = some p) (hq : l[j]? = some q) : f p ≠ f q := by
  have hpi : (l.map f)[i]? = some (f p) := by rw [List.getElem?_map, hp]; rfl
  have hqj : (l.map f)[j]? = some (f q) := by rw [List.getElem?_map, hq]; rfl
  obtain ⟨hilt, hpe⟩ := List.getElem?_eq_some_iff.mp hpi
  obtain ⟨hjlt, hqe⟩ := List.getElem?_eq_some_iff.mp hqj
  have hpw := List.pairwise_iff_getElem.mp hnd
  rcases Nat.lt_or_ge i j with hlt | hge
  · have := hpw i j hilt hjlt hlt
    rw [hpe, hqe] at this
    exact this
  · have hgt : j < i := by omega
    have := hpw j i hjlt hilt hgt
    rw [hpe, hqe] at this
    exact fun hc => this hc.symm

theorem postPassGo_spec (cols n : ℕ) (hn : 2 ≤ n) :
    ∀ (rem i : ℕ) (l : List ScatterPos), i + rem = n → l.length = n →
    (l.map tagOf).Nodup →
    (∀ k, k < i → ∀ p, l[k]? = some p → atOwnCell cols p k = false) →
    ∀ k, k < n → ∀ p, (postPassGo cols n i rem l)[k]? = some p →
      atOwnCell cols p k = false := by
  intro rem
  induction rem with
  | zero =>
    intro i l hi _ _ hinv k hk p hp
    exact hinv k (by omega) p hp
  | succ rem ih =>
    intro i l hi hlen hnd hinv k hk p hp
    have hil : i < l.length := by omega
    have hp0 : l[i]? = some (l.get ⟨i, hil⟩) := by
      rw [List.getElem?_eq_getElem hil]; rfl
    have hred : (postPassGo cols n i (rem + 1) l)
        = postPassGo cols n (i + 1) rem
            (if atOwnCell cols (l.get ⟨i, hil⟩) i then swapL l i ((i + 1) % n) else l) := by
      show postPassGo cols n (i + 1) rem
          (match l[i]? with
           | some q => if atOwnCell cols q i then swapL l i ((i + 1) % n) else l
           | none => l)
        = _
      rw [hp0]
    rw [hred] at hp
    by_cases hown : atOwnCell cols (l.get ⟨i, hil⟩) i = true
    · rw [if_pos hown] at hp
      have htag := (atOwnCell_true_iff cols _ i).mp hown
      by_cases hlast : i + 1 < n
      · have hmod : (i + 1) % n = i + 1 := Nat.mod_eq_of_lt hlast
        rw [hmod] at hp
        have hi1l : i + 1 < l.length := by omega
        have hp1 : l[i + 1]? = some (l.get ⟨i + 1, hi1l⟩) := by
          rw [List.getElem?_eq_getElem hi1l]; rfl
        have hchar := swapL_getElem? l i (i + 1) _ _ hp0 hp1
        have hperm := swapL_perm l i (i + 1)
        refine ih (i + 1) (swapL l i (i + 1)) (by omega)
          (hperm.length_eq.trans hlen) (((hperm.map tagOf).nodup_iff).mpr hnd)
          ?_ k hk p hp
        intro k2 hk2 q hq
        rw [hchar k2, if_neg (by omega)] at hq
        by_cases hik2 : i = k2
        · rw [if_pos hik2] at hq
          injection hq with hq
          subst hq
          apply atOwnCell_false_of_ne
          intro hc
          have hne := nodup_map_getElem_ne tagOf hnd
            (show i ≠ i + 1 by omega) hp0 hp1
          apply hne
          unfold tagOf
          rw [htag.1, htag.2, hc.1, hc.2, hik2]
        · rw [if_neg hik2] at hq
          exact hinv k2 (by omega) q hq
      · have hieq : i + 1 = n := by omega
        have hrem0 : rem = 0 := by omega
        subst hrem0
        have hmod : (i + 1) % n = 0 := by rw [hieq]; exact Nat.mod_self n
        rw [hmod] at hp
        have hp2 : (swapL l i 0)[k]? = some p := hp
        have h0l : 0 < l.length := by omega
        have hq0 : l[0]? = some (l.get ⟨0, h0l⟩) := by
          rw [List.getElem?_eq_getElem h0l]; rfl
        have hchar := swapL_getElem? l i 0 _ _ hp0 hq0
        rw [hchar k] at hp2
        by_cases hk0 : 0 = k
        · rw [if_pos hk0] at hp2
          injection hp2 with hp2
          subst hp2
          subst hk0
          apply atOwnCell_false_of_ne
          intro hc
          have : i = 0 := cell_index_inj cols
            (by rw [← htag.1, ← hc.1]) (by rw [← htag.2, ← hc.2])
          omega
        · rw [if_neg hk0] at hp2
          by_cases hki : i = k
          · rw [if_pos hki] at hp2
            injection hp2 with hp2
            subst hp2
            subst hki
            apply atOwnCell_false_of_ne
            intro hc
            have hne := nodup_map_getElem_ne tagOf hnd
              (show (0 : ℕ) ≠ i by omega) hq0 hp0
            apply hne
            unfold tagOf
            rw [htag.1, htag.2, hc.1, hc.2]
          · rw [if_neg hki] at hp2
            exact hinv k (by omega) p hp2
    · rw [if_neg hown] at hp
      have hflg : atOwnCell cols (l.get ⟨i, hil⟩) i = false := by
        cases hb : atOwnCell cols (l.get ⟨i, hil⟩) i with
        | false => rfl
        | true => exact absurd hb hown
      refine ih (i + 1) l (by omega) hlen hnd ?_ k hk p hp
      intro k2 hk2 q hq
      by_cases hik2 : k2 = i
      · subst hik2
        rw [hp0] at hq
        injection hq with hq
        subst hq
        exact hflg
      · exact hinv k2 (by omega) q hq

theorem sinv_posCell (w h : ℚ) (rows cols row col : ℕ)
    (hcw : 0 < w / (cols : ℚ)) (hch : 0 < h / (rows : ℚ)) :
    SInv (posCell w h rows cols row col) (GoodP w h rows cols) := by
  unfold posCell
  refine sinv_sbind sinv_nextRand (fun rx hrx => ?_)
  refine sinv_sbind sinv_nextRand (fun ry hry => ?_)
  refine sinv_spure _ ?_
  obtain ⟨hrx0, hrx1⟩ := hrx
  obtain ⟨hry0, hry1⟩ := hry
  unfold GoodP
  refine ⟨?_, ?_, ?_, ?_⟩
  · show (col : ℚ) * (w / (cols : ℚ)) + (w / (cols : ℚ)) * (1/5)
      ≤ (col : ℚ) * (w / (cols : ℚ)) + (w / (cols : ℚ)) * (1/5)
        + rx * (w / (cols : ℚ)) * (3/5)
    nlinarith [mul_nonneg hrx0 hcw.le]
  · show (col : ℚ) * (w / (cols : ℚ)) + (w / (cols : ℚ)) * (1/5)
        + rx * (w / (cols : ℚ)) * (3/5)
      < (col : ℚ) * (w / (cols : ℚ)) + (w / (cols : ℚ)) * (4/5)
    nlinarith [mul_pos (sub_pos.mpr hrx1) hcw]
  · show (row : ℚ) * (h / (rows : ℚ)) + (h / (rows : ℚ)) * (1/5)
      ≤ (row : ℚ) * (h / (rows : ℚ)) + (h / (rows : ℚ)) * (1/5)
        + ry * (h / (rows : ℚ)) * (3/5)
    nlinarith [mul_nonneg hry0 hch.le]
  · show (row : ℚ) * (h / (rows : ℚ)) + (h / (rows : ℚ)) * (1/5)
        + ry * (h / (rows : ℚ)) * (3/5)
      < (row : ℚ) * (h / (rows : ℚ)) + (h / (rows : ℚ)) * (4/5)
    nlinarith [mul_pos (sub_pos.mpr hry1) hch]

theorem sinv_genPositions (w h : ℚ) (rows cols : ℕ)
    (hcw : 0 < w / (cols : ℚ)) (hch : 0 < h / (rows : ℚ)) :
    SInv (genPositions w h rows cols) (fun ps => ∀ p ∈ ps, GoodP w h rows cols p) := by
  unfold genPositions
  refine sinv_smap (sinv_smapM (fun row => sinv_smapM
    (fun col => sinv_posCell w h rows cols row col hcw hch) (List.range cols))
    (List.range rows)) ?_
  intro L hL p hp
  obtain ⟨bs, hbs, hpbs⟩ := List.mem_flatten.mp hp
  exact hL bs hbs p hpbs

theorem sinv_generateEdgeVariation : SInv generateEdgeVariation (fun _ => True) := by
  unfold generateEdgeVariation
  exact sinv_sbind sinv_nextRand fun r1 _ =>
    sinv_sbind sinv_nextRand fun r2 _ =>
    sinv_sbind sinv_nextRand fun r3 _ =>
    sinv_sbind sinv_nextRand fun r4 _ => sinv_spure _ trivial

theorem sinv_genEdge : SInv genEdge (fun _ => True) := by
  unfold genEdge
  exact sinv_sbind sinv_nextRand fun r _ =>
    sinv_sbind sinv_generateEdgeVariation fun v _ => sinv_spure _ trivial

theorem sinv_weaken {α : Type} {f : SR α} {P Q : α → Prop}
    (hf : SInv f P) (h : ∀ a, P a → Q a) : SInv f Q := by
  intro st hst
  obtain ⟨hp, hs⟩ := hf st hst
  exact ⟨h _ hp, hs⟩

theorem sinv_genHorizontalEdges (rows cols : ℕ) :
    SInv (genHorizontalEdges rows cols) (fun _ => True) := by
  unfold genHorizontalEdges
  exact sinv_weaken (sinv_smapM (fun _ =>
      sinv_smapM (fun _ => sinv_genEdge) (List.range (cols - 1))) (List.range rows))
    (fun _ _ => trivial)

theorem sinv_genVerticalEdges (rows cols : ℕ) :
    SInv (genVerticalEdges rows cols) (fun _ => True) := by
  unfold genVerticalEdges
  exact sinv_weaken (sinv_smapM (fun _ =>
      sinv_smapM (fun _ => sinv_genEdge) (List.range cols)) (List.range (rows - 1)))
    (fun _ _ => trivial)

theorem shuffled_spec (w h : ℚ) (rows cols : ℕ) (hn2 : 2 ≤ rows * cols)
    (hcw : 0 < w / (cols : ℚ)) (hch : 0 < h / (rows : ℚ))
    (st : RState) (hst : seeded st) :
    (((generateShuffledPositions w h rows cols) st).1).length = rows * cols ∧
    (∀ p ∈ ((generateShuffledPositions w h rows cols) st).1, GoodP w h rows cols p) ∧
    (∀ k, k < rows * cols → ∀ p,
      (((generateShuffledPositions w h rows cols) st).1)[k]? = some p →
      atOwnCell cols p k = false) := by
  have hgood0 := (sinv_genPositions w h rows cols hcw hch st hst).1
  have htags := genPositions_tags w h rows cols st
  set ps0 := ((genPositions w h rows cols) st).1 with hps0
  set st1 := ((genPositions w h rows cols) st).2 with hst1d
  have hlen0 : ps0.length = rows * cols := by
    have hc := congrArg List.length htags
    rwa [List.length_map, cellGrid_length] at hc
  have hnd0 : (ps0.map tagOf).Nodup := by rw [htags]; exact cellGrid_nodup rows cols
  have hval : ((generateShuffledPositions w h rows cols) st).1
      = postPassGo cols (((fyLoop ps0.length (ps0.length - 1) ps0) st1).1).length 0
          (((fyLoop ps0.length (ps0.length - 1) ps0) st1).1).length
          (((fyLoop ps0.length (ps0.length - 1) ps0) st1).1) := rfl
  set ps1 := ((fyLoop ps0.length (ps0.length - 1) ps0) st1).1 with hps1
  have hperm1 : ps1.Perm ps0 := fyLoop_perm ps0.length (ps0.length - 1) ps0 st1
  have hlen1 : ps1.length = rows * cols := hperm1.length_eq.trans hlen0
  have hnd1 : (ps1.map tagOf).Nodup := ((hperm1.map tagOf).nodup_iff).mpr hnd0
  have hgood1 : ∀ p ∈ ps1, GoodP w h rows cols p :=
    fun p hp => hgood0 p (hperm1.mem_iff.mp hp)
  have hpermr : (postPassGo cols ps1.length 0 ps1.length ps1).Perm ps1 :=
    postPassGo_perm cols ps1.length ps1.length 0 ps1
  refine ⟨?_, ?_, ?_⟩
  · rw [hval]
    exact hpermr.length_eq.trans hlen1
  · rw [hval]
    intro p hp
    exact hgood1 p (hpermr.mem_iff.mp hp)
  · rw [hval]
    intro k hk p hp
    exact postPassGo_spec cols ps1.length (by omega) ps1.length 0 ps1 (by omega) rfl
      hnd1 (fun k2 hk2 => absurd hk2 (by omega)) k (by omega) p hp

set_option maxHeartbeats 1600000 in
theorem generatePieces_no_solved (w h : ℚ) (rows cols : ℕ) (st : RState)
    (hst : seeded st) (hrows : 2 ≤ rows) (hcols : 2 ≤ cols)
    (hw : 0 < w) (hh : 0 < h) :
    ∀ p ∈ ((generatePieces w h (w / (cols : ℚ)) (h / (rows : ℚ)) rows cols) st).1,
      p.currentX ≠ p.correctX ∧ p.currentY ≠ p.correctY ∧
      ¬((p.col : ℚ) * (w / (cols : ℚ)) ≤ p.currentX ∧
        p.currentX < ((p.col : ℚ) + 1) * (w / (cols : ℚ)) ∧
        (p.row : ℚ) * (h / (rows : ℚ)) ≤ p.currentY ∧
        p.currentY < ((p.row : ℚ) + 1) * (h / (rows : ℚ))) := by
  intro p hp
  have hcq : (0 : ℚ) < (cols : ℚ) := by exact_mod_cast (by omega : 0 < cols)
  have hrq : (0 : ℚ) < (rows : ℚ) := by exact_mod_cast (by omega : 0 < rows)
  have hcw : 0 < w / (cols : ℚ) := div_pos hw hcq
  have hch : 0 < h / (rows : ℚ) := div_pos hh hrq
  set stA := (genHorizontalEdges rows cols st).2 with hstAd
  set hE := (genHorizontalEdges rows cols st).1 with hEd
  set vE := (genVerticalEdges rows cols stA).1 with vEd
  set stB := (genVerticalEdges rows cols stA).2 with hstBd
  set scatter := ((generateShuffledPositions w h rows cols) stB).1 with hscatd
  have hstA : seeded stA := (sinv_genHorizontalEdges rows cols st hst).2
  have hstB : seeded stB := (sinv_genVerticalEdges rows cols stA hstA).2
  have hn2 : 2 ≤ rows * cols :=
    le_trans (by norm_num) (Nat.mul_le_mul hrows hcols)
  obtain ⟨hlenS, hgoodS, hownS⟩ :=
    shuffled_spec w h rows cols hn2 hcw hch stB hstB
  have hp2 : p ∈ (List.range rows).flatMap (fun row =>
      (List.range cols).map (fun col =>
        createPiece (w / (cols : ℚ)) (h / (rows : ℚ)) rows cols hE vE
          (row * cols + col) row col
          (scatter.getD (row * cols + col) ⟨0, 0, 0, 0⟩))) := hp
  obtain ⟨row, hrow, hmap⟩ := List.mem_flatMap.mp hp2
  obtain ⟨col, hcol, hpe⟩ := List.mem_map.mp hmap
  rw [List.mem_range] at hrow hcol
  have hilt : row * cols + col < rows * cols := by
    have h2 : (row + 1) * cols ≤ rows * cols := Nat.mul_le_mul_right cols hrow
    have h3 : row * cols + col < (row + 1) * cols := by rw [Nat.succ_mul]; omega
    omega
  have hsc_lt : row * cols + col < scatter.length := by rw [hlenS]; exact hilt
  have hslot : scatter[row * cols + col]? = some (scatter.get ⟨row * cols + col, hsc_lt⟩) := by
    rw [List.getElem?_eq_getElem hsc_lt]; rfl
  set slot := scatter.get ⟨row * cols + col, hsc_lt⟩ with hslotd
  have hgetD : scatter.getD (row * cols + col) ⟨0, 0, 0, 0⟩ = slot := by
    rw [List.getD_eq_getElem?_getD, hslot]; rfl
  rw [hgetD] at hpe
  subst hpe
  obtain ⟨hx1, hx2, hy1, hy2⟩ := hgoodS slot (List.getElem?_mem hslot)
  have hown := hownS (row * cols + col) hilt slot hslot
  have hdiv : (row * cols + col) / cols = row := by
    have heq : row * cols + col = col + cols * row := by ring
    rw [heq, Nat.add_mul_div_left col row (by omega : 0 < cols),
      Nat.div_eq_of_lt hcol]
    omega
  have hmodc : (row * cols + col) % cols = col := by
    have heq : row * cols + col = col + cols * row := by ring
    rw [heq, Nat.add_mul_mod_self_left, Nat.mod_eq_of_lt hcol]
  have hcell : ¬(slot.originalRow = row ∧ slot.originalCol = col) := by
    intro hc
    have htrue : atOwnCell cols slot (row * cols + col) = true := by
      refine (atOwnCell_true_iff _ _ _).mpr ⟨?_, ?_⟩
      · rw [hdiv]; exact hc.1
      · rw [hmodc]; exact hc.2
    rw [hown] at htrue
    cases htrue
  refine ⟨?_, ?_, ?_⟩
  · show slot.x ≠ (col : ℚ) * (w / (cols : ℚ))
    intro heq
    rcases Nat.lt_or_ge slot.originalCol col with hlt | hge
    · have hcast : (slot.originalCol : ℚ) + 1 ≤ (col : ℚ) := by
        exact_mod_cast Nat.succ_le_of_lt hlt
      nlinarith [mul_le_mul_of_nonneg_right hcast hcw.le]
    · have hcast : (col : ℚ) ≤ (slot.originalCol : ℚ) := by exact_mod_cast hge
      nlinarith [mul_le_mul_of_nonneg_right hcast hcw.le]
  · show slot.y ≠ (row : ℚ) * (h / (rows : ℚ))
    intro heq
    rcases Nat.lt_or_ge slot.originalRow row with hlt | hge
    · have hcast : (slot.originalRow : ℚ) + 1 ≤ (row : ℚ) := by
        exact_mod_cast Nat.succ_le_of_lt hlt
      nlinarith [mul_le_mul_of_nonneg_right hcast hch.le]
    · have hcast : (row : ℚ) ≤ (slot.originalRow : ℚ) := by exact_mod_cast hge
      nlinarith [mul_le_mul_of_nonneg_right hcast hch.le]
  · show ¬((col : ℚ) * (w / (cols : ℚ)) ≤ slot.x ∧
        slot.x < ((col : ℚ) + 1) * (w / (cols : ℚ)) ∧
        (row : ℚ) * (h / (rows : ℚ)) ≤ slot.y ∧
        slot.y < ((row : ℚ) + 1) * (h / (rows : ℚ)))
    rintro ⟨hbx1, hbx2, hby1, hby2⟩
    by_cases hcc : slot.originalCol = col
    · have hrr : slot.originalRow ≠ row := fun hr => hcell ⟨hr, hcc⟩
      rcases Nat.lt_or_ge slot.originalRow row with hlt | hge
      · have hcast : (slot.originalRow : ℚ) + 1 ≤ (row : ℚ) := by
          exact_mod_cast Nat.succ_le_of_lt hlt
        nlinarith [mul_le_mul_of_nonneg_right hcast hch.le]
      · have hgt : row < slot.originalRow := by omega
        have hcast : (row : ℚ) + 1 ≤ (slot.originalRow : ℚ) := by
          exact_mod_cast Nat.succ_le_of_lt hgt
        nlinarith [mul_le_mul_of_nonneg_right hcast hch.le]
    · rcases Nat.lt_or_ge slot.originalCol col with hlt | hge
      · have hcast : (slot.originalCol : ℚ) + 1 ≤ (col : ℚ) := by
          exact_mod_cast Nat.succ_le_of_lt hlt
        nlinarith [mul_le_mul_of_nonneg_right hcast hcw.le]
      · have hgt : col < slot.originalCol := by omega
        have hcast : (col : ℚ) + 1 ≤ (slot.originalCol : ℚ) := by
          exact_mod_cast Nat.succ_le_of_lt hgt
        nlinarith [mul_le_mul_of_nonneg_right hcast hcw.le]

theorem cutImage_decomp (w h pieceCount : ℕ) (seed : Option ℕ) (ent : ℕ → ℚ) :
    ∃ rows cols : ℕ, 2 ≤ rows ∧ 2 ≤ cols ∧
      (cutImage w h pieceCount seed ent).pieceWidth = (w : ℚ) / (cols : ℚ) ∧
      (cutImage w h pieceCount seed ent).pieceHeight = (h : ℚ) / (rows : ℚ) ∧
      (cutImage w h pieceCount seed ent).pieces
        = ((generatePieces (w : ℚ) (h : ℚ) ((w : ℚ) / (cols : ℚ)) ((h : ℚ) / (rows : ℚ))
            rows cols)
            { rng := seed.map (fun z => z % m32), ent := ent, entPos := 0 }).1 :=
  ⟨max 2 ((jsRound (((ratSqrtRound ((pieceCount * w : ℚ) / (h : ℚ)) : ℕ) * h : ℚ)
      / (w : ℚ))).toNat),
   max 2 (ratSqrtRound ((pieceCount * w : ℚ) / (h : ℚ))),
   le_max_left _ _, le_max_left _ _, rfl, rfl, rfl⟩

/-- **C5.**  No piece of a seeded cut starts solved: for every image size,
requested piece count and seed, each piece's initial scatter position
differs from its solved position on both axes, and in particular the piece
does not start inside its own solved grid cell. -/
theorem cutImage_no_solved_start (w h pieceCount s : ℕ) (ent : ℕ → ℚ)
    (hw : 0 < w) (hh : 0 < h) :
    ∀ p ∈ (cutImage w h pieceCount (some s) ent).pieces,
      p.currentX ≠ p.correctX ∧ p.currentY ≠ p.correctY ∧
      ¬((p.col : ℚ) * (cutImage w h pieceCount (some s) ent).pieceWidth ≤ p.currentX ∧
        p.currentX < ((p.col : ℚ) + 1) * (cutImage w h pieceCount (some s) ent).pieceWidth ∧
        (p.row : ℚ) * (cutImage w h pieceCount (some s) ent).pieceHeight ≤ p.currentY ∧
        p.currentY < ((p.row : ℚ) + 1) * (cutImage w h pieceCount (some s) ent).pieceHeight) := by
  obtain ⟨rows, cols, hr2, hc2, hpw, hph, hpieces⟩ :=
    cutImage_decomp w h pieceCount (some s) ent
  rw [hpieces, hpw, hph]
  have hst : seeded { rng := (some s).map (fun z => z % m32), ent := ent, entPos := 0 } := rfl
  exact generatePieces_no_solved (w : ℚ) (h : ℚ) rows cols _ hst hr2 hc2
    (by exact_mod_cast hw) (by exact_mod_cast hh)

/-- Witness for C5: on a concrete seeded 2×2 cut, the first cut piece does
not start at (or in the cell of) its solved position. -/
theorem cutImage_no_solved_start_witness :
    cp0.currentX ≠ cp0.correctX ∧ cp0.currentY ≠ cp0.correctY ∧
    ¬((cp0.col : ℚ) * (cutImage 100 80 4 (some 7) zent).pieceWidth ≤ cp0.currentX ∧
      cp0.currentX < ((cp0.col : ℚ) + 1) * (cutImage 100 80 4 (some 7) zent).pieceWidth ∧
      (cp0.row : ℚ) * (cutImage 100 80 4 (some 7) zent).pieceHeight ≤ cp0.currentY ∧
      cp0.currentY < ((cp0.row : ℚ) + 1) * (cutImage 100 80 4 (some 7) zent).pieceHeight) :=
  cutImage_no_solved_start 100 80 4 7 zent (by norm_num) (by norm_num) cp0 (by
    have hlen : 0 < (cutImage 100 80 4 (some 7) zent).pieces.length := by
      with_unfolding_all decide
    have h0 : (cutImage 100 80 4 (some 7) zent).pieces[0]?
        = some ((cutImage 100 80 4 (some 7) zent).pieces.get ⟨0, hlen⟩) := by
      rw [List.getElem?_eq_getElem hlen]; rfl
    have hcp : cp0 = (cutImage 100 80 4 (some 7) zent).pieces.get ⟨0, hlen⟩ := by
      unfold cp0
      rw [List.getD_eq_getElem?_getD, h0]
      rfl
    rw [hcp]
    exact List.getElem?_mem h0)
